import Mathlib

/-!
Verification of the analysis-pipeline core of the daily stock analysis
repository.  The Python services are shallowly embedded: pure helpers become
Lean functions, the stateful route-health table becomes explicit state
passing, dictionary mutation in the orchestrator becomes an explicit heap of
dictionaries, and network effects become environment parameters plus an
explicit call log.  Machine floats only ever hold small decimal fractions
here (2.0, 1.5, 0.4, ...), so scores and timestamps are modelled with `ℚ`.
-/

set_option maxRecDepth 20000

/-! ## String helpers shared by the services

Python string primitives (`str.lower`, `str.strip`, `re.sub(r"\s+", ...)`,
substring membership) modelled over `String.data`.  `Char.toLower` only maps
the ASCII range, which agrees with Python on every character the services
and the spec's examples use (ASCII and CJK, which has no case). -/

/-- Model of Python `str.lower`. -/
def strLower (s : String) : String :=
  String.mk (s.data.map Char.toLower)

/-- The whitespace class of Python's `\s` / `str.strip`, ASCII fragment. -/
def isPySpace (c : Char) : Bool :=
  c = ' ' || c = '\t' || c = '\n' || c = '\r' || c = '\x0b' || c = '\x0c'

/-- Model of `re.sub(r"\s+", "", s)`. -/
def removeWs (s : String) : String :=
  String.mk (s.data.filter (fun c => !isPySpace c))

/-- Model of Python `str.strip()`. -/
def strTrim (s : String) : String :=
  String.mk (((s.data.dropWhile isPySpace).reverse.dropWhile isPySpace).reverse)

/-- `startsWithL hay needle`: `needle` is an initial run of `hay`. -/
def startsWithL : List Char → List Char → Bool
  | _, [] => true
  | [], _ :: _ => false
  | a :: hs, b :: ns => a = b && startsWithL hs ns

/-- `hasSubstrL hay needle`: `needle` occurs contiguously in `hay`. -/
def hasSubstrL : List Char → List Char → Bool
  | [], needle => needle.isEmpty
  | a :: hs, needle => startsWithL (a :: hs) needle || hasSubstrL hs needle

/-- Model of Python `needle in hay` on strings. -/
def strContains (hay needle : String) : Bool :=
  hasSubstrL hay.data needle.data

/-- Model of Python slicing `s[:n]` (by characters). -/
def takeChars (n : ℕ) (s : String) : String :=
  String.mk (s.data.take n)

/-! ## Route-health tracker (`RssNewsService`, news_service.py 53-57, 167-180)

`_route_fail_counts` / `_route_last_fail_ts` are Python dicts keyed by the
route template; they are modelled extensionally as `String → Option _`
(`none` = key absent).  `time.time()` values are `ℚ`. -/

structure RouteState where
  failCounts : String → Option ℕ
  lastFailTs : String → Option ℚ

/-- `self._route_fail_threshold = 3`. -/
def routeFailThreshold : ℕ := 3

/-- `self._route_cooldown_seconds = 15 * 60`. -/
def routeCooldownSeconds : ℚ := 15 * 60

/-- `self._route_fail_counts.get(route_tpl, 0)`. -/
def getRouteFailCount (st : RouteState) (route : String) : ℕ :=
  (st.failCounts route).getD 0

/-- `self._route_last_fail_ts.get(route_tpl, 0)`. -/
def getRouteLastTs (st : RouteState) (route : String) : ℚ :=
  (st.lastFailTs route).getD 0

/-- `RssNewsService._should_skip_route`, with `now` the value of
`time.time()` at the call. -/
def shouldSkipRoute (now : ℚ) (st : RouteState) (route : String) : Bool :=
  if getRouteFailCount st route < routeFailThreshold then false
  else decide (now - getRouteLastTs st route < routeCooldownSeconds)

/-- `RssNewsService._record_route_failure`, with `now` the value of
`time.time()` at the call. -/
def recordRouteFailure (now : ℚ) (route : String) (st : RouteState) : RouteState where
  failCounts := fun r => if r = route then some (getRouteFailCount st route + 1) else st.failCounts r
  lastFailTs := fun r => if r = route then some now else st.lastFailTs r

/-- `RssNewsService._record_route_success` (both entries are popped). -/
def recordRouteSuccess (route : String) (st : RouteState) : RouteState where
  failCounts := fun r => if r = route then none else st.failCounts r
  lastFailTs := fun r => if r = route then none else st.lastFailTs r

/-- A run of consecutive `_record_route_failure` calls at the given times. -/
def applyFailures (times : List ℚ) (route : String) (st : RouteState) : RouteState :=
  times.foldl (fun s t => recordRouteFailure t route s) st

/-- The state of a freshly constructed service (both dicts empty). -/
def emptyRouteState : RouteState where
  failCounts := fun _ => none
  lastFailTs := fun _ => none

/-! ## News items, dedup, relevance and scoring (news_service.py 30-35, 204-333)

`NewsItem.published` holds the age of the item in hours as recovered by
`_parse_datetime` and the subtraction against `datetime.now` inside
`_recency_weight` (`none` = unparseable); the RFC2822/ISO text parsing
itself is abstracted into this field. -/

structure NewsItem where
  title : String
  link : String
  published : Option ℚ
  summary : String
deriving DecidableEq

/-- The dedup identity key of `_dedupe_items`:
`re.sub(r"\s+", "", title.lower()) + "|" + link.strip().lower()`. -/
def itemKey (it : NewsItem) : String :=
  removeWs (strLower it.title) ++ "|" ++ strLower (strTrim it.link)

/-- The loop of `_dedupe_items`; `seen` is the key set accumulated so far. -/
def dedupeGo : List NewsItem → List String → List NewsItem
  | [], _ => []
  | it :: rest, seen =>
    if itemKey it ∈ seen then dedupeGo rest seen
    else it :: dedupeGo rest (itemKey it :: seen)

/-- `RssNewsService._dedupe_items`. -/
def dedupeItems (items : List NewsItem) : List NewsItem :=
  dedupeGo items []

/-- `list(dict.fromkeys(l))`: first-occurrence dedup preserving order
(`seen` = keys already emitted). -/
def dedupFirstGo : List String → List String → List String
  | [], _ => []
  | x :: xs, seen =>
    if x ∈ seen then dedupFirstGo xs seen else x :: dedupFirstGo xs (x :: seen)

def dedupFirst (l : List String) : List String := dedupFirstGo l []

/-- `RssNewsService._build_stock_keywords`. -/
def buildStockKeywords (stockCode stockName : String) : List String :=
  let code := strTrim stockCode
  let name := strTrim stockName
  let kws := [name, code].filter (fun k => k ≠ "")
  let kws :=
    if code ≠ "" ∧ code.data.all Char.isDigit = true ∧ code.length = 6 then
      kws ++ [if code.data.head? = some '6' ∨ code.data.head? = some '9'
              then "sh" ++ code else "sz" ++ code]
    else kws
  dedupFirst (kws.map strLower)

/-- `RssNewsService._is_stock_related`. -/
def isStockRelated (it : NewsItem) (keywords : List String) : Bool :=
  if keywords.isEmpty then true
  else keywords.any (fun k =>
    k ≠ "" && strContains (strLower (it.title ++ " " ++ it.summary)) k)

/-- The host extraction `urlparse(link).netloc`: the run after the first
`"://"` up to the next `/`, `?` or `#`; empty when no scheme separator is
present. -/
def findSchemeSep : List Char → Option (List Char)
  | [] => none
  | ':' :: '/' :: '/' :: rest => some rest
  | _ :: rest => findSchemeSep rest

def netlocOf (link : String) : String :=
  match findSchemeSep link.data with
  | some rest => String.mk (rest.takeWhile (fun c => c ≠ '/' ∧ c ≠ '?' ∧ c ≠ '#'))
  | none => ""

/-- `RssNewsService._source_weight`. -/
def sourceWeight (link : String) : ℚ :=
  if link = "" then 0
  else
    let host := strLower (netlocOf link)
    if ["cls.cn", "wallstreetcn.com", "sina.com.cn"].any (fun k => strContains host k) then 6/5
    else if ["xueqiu.com", "eastmoney.com", "cnstock.com"].any (fun k => strContains host k) then 4/5
    else 3/10

/-- `RssNewsService._recency_weight`, taking the parsed age directly
(see `NewsItem.published`). -/
def recencyWeight (published : Option ℚ) : ℚ :=
  match published with
  | none => 0
  | some age =>
    let h := max 0 age
    if h ≤ 24 then 6/5
    else if h ≤ 72 then 4/5
    else if h ≤ 168 then 2/5
    else 1/10

/-- `RssNewsService._score_item`.  The keyword loop `score += ...` is the
sum of the per-keyword contributions in list order. -/
def scoreItem (item : NewsItem) (stockCode stockName : String)
    (keywords : List String) (scene : String) : ℚ :=
  let text := strLower (item.title ++ " " ++ item.summary)
  let titleText := strLower item.title
  let base : ℚ :=
    if scene = "stock" then
      let kwScore := (keywords.map (fun kw =>
        if kw = "" then 0
        else (if strContains text kw then (2 : ℚ) else 0)
             + (if strContains titleText kw then 3/2 else 0))).sum
      let codeL := strLower stockCode
      let codeBonus : ℚ := if codeL ≠ "" ∧ strContains text codeL = true then 5/2 else 0
      let nameL := strLower stockName
      let nameBonus : ℚ := if nameL ≠ "" ∧ strContains titleText nameL = true then 2 else 0
      kwScore + codeBonus + nameBonus
    else 0
  base + sourceWeight item.link + recencyWeight item.published

/-- `(scene or "stock").lower()`. -/
def sceneLower (scene : String) : String :=
  strLower (if scene = "" then "stock" else scene)

/-- The keyword list `_rank_and_filter_items` passes to `_score_item`. -/
def sceneKeywords (stockCode stockName scene : String) : List String :=
  if sceneLower scene = "stock" then buildStockKeywords stockCode stockName else []

/-- The `target_items` list of `_rank_and_filter_items`: dedup, then in the
stock scene the relevance filter with fallback to the full deduped list. -/
def targetItems (items : List NewsItem) (stockCode stockName scene : String) : List NewsItem :=
  let deduped := dedupeItems items
  if sceneLower scene = "stock" then
    let related := deduped.filter (fun it =>
      isStockRelated it (buildStockKeywords stockCode stockName))
    if related.isEmpty then deduped else related
  else deduped

/-- The order `scored.sort(key=lambda x: x[0], reverse=True)` sorts by:
`a` may precede `b` iff `b`'s score is at most `a`'s.  Python's sort is
stable, so the result is the unique stable descending reordering, which is
what `List.insertionSort` with this relation produces. -/
def scoreGe (a b : ℚ × NewsItem) : Prop := b.1 ≤ a.1

instance : DecidableRel scoreGe := fun a b => inferInstanceAs (Decidable (b.1 ≤ a.1))

instance : IsTotal (ℚ × NewsItem) scoreGe := ⟨fun a b => le_total b.1 a.1⟩

instance : IsTrans (ℚ × NewsItem) scoreGe := ⟨fun _ _ _ hab hbc => le_trans hbc hab⟩

/-- `RssNewsService._rank_and_filter_items`. -/
def rankAndFilterItems (items : List NewsItem) (stockCode stockName scene : String) : List NewsItem :=
  let deduped := dedupeItems items
  if deduped.isEmpty then []
  else
    let kws := sceneKeywords stockCode stockName scene
    let scored := (targetItems items stockCode stockName scene).map
      (fun it => (scoreItem it stockCode stockName kws (sceneLower scene), it))
    (List.insertionSort scoreGe scored).map Prod.snd

/-! ## `_safe_format_route` (news_service.py 182-188)

`route_tpl.format_map(_DefaultDict(route_vars))`: a missing key yields `""`
via `__missing__`.  The format-string scanner is modelled for the fragment
the templates use: literal text, doubled braces and plain named fields.
Field forms outside that fragment (conversions `!`, format specs `:`,
attribute/index access, positional indices) are mapped to an explicit
`.error`; Python raises on malformed templates (lone braces) just as the
model does. -/

/-- `route_vars[key]` under `_DefaultDict.__missing__`. -/
def lookupVar (vars : List (String × String)) (k : String) : String :=
  (List.lookup k vars).getD ""

/-- Field names the model does not cover (or Python rejects: empty field
with no positional args, pure positional index). -/
def fieldNameBad (f : List Char) : Bool :=
  f.isEmpty
  || f.any (fun c => c = ':' || c = '!' || c = '.' || c = '[' || c = ']' || c = '\x7b')
  || f.all Char.isDigit

/-- The scanner state: literal text, just after `\x7b`, just after
`\x7d`, or inside a replacement field (`acc` = field chars, reversed). -/
inductive FmMode where
  | lit : FmMode
  | sawL : FmMode
  | sawR : FmMode
  | field : List Char → FmMode

/-- The format-string scan, one character per step. -/
def fmAux (vars : List (String × String)) : List Char → FmMode → Except String (List Char)
  | [], .lit => .ok []
  | [], .sawL => .error "single opening brace encountered in format string"
  | [], .sawR => .error "single closing brace encountered in format string"
  | [], .field _ => .error "expected closing brace before end of string"
  | c :: rest, .lit =>
    if c = '\x7b' then fmAux vars rest .sawL
    else if c = '\x7d' then fmAux vars rest .sawR
    else Except.map (fun out => c :: out) (fmAux vars rest .lit)
  | c :: rest, .sawL =>
    if c = '\x7b' then Except.map (fun out => '\x7b' :: out) (fmAux vars rest .lit)
    else if c = '\x7d' then .error "replacement index out of range"
    else fmAux vars rest (.field [c])
  | c :: rest, .sawR =>
    if c = '\x7d' then Except.map (fun out => '\x7d' :: out) (fmAux vars rest .lit)
    else .error "single closing brace encountered in format string"
  | c :: rest, .field acc =>
    if c = '\x7d' then
      if fieldNameBad acc.reverse then .error "field form outside the modelled fragment"
      else Except.map (fun out => (lookupVar vars (String.mk acc.reverse)).data ++ out)
        (fmAux vars rest .lit)
    else fmAux vars rest (.field (c :: acc))

/-- `RssNewsService._safe_format_route`. -/
def safeFormatRoute (routeTpl : String) (routeVars : List (String × String)) : Except String String :=
  Except.map String.mk (fmAux routeVars routeTpl.data .lit)

/-- A template as literal chunks and plain named placeholders. -/
inductive TplPart where
  | lit : String → TplPart
  | hole : String → TplPart

/-- The template text: a placeholder `name` appears as `{name}`. -/
def tplString : List TplPart → String
  | [] => ""
  | .lit s :: rest => s ++ tplString rest
  | .hole n :: rest => "\x7b" ++ n ++ "\x7d" ++ tplString rest

/-- The substitution `format_map` performs on such a template: each hole is
replaced by its variable, absent variables by `""`. -/
def tplRender (vars : List (String × String)) : List TplPart → String
  | [] => ""
  | .lit s :: rest => s ++ tplRender vars rest
  | .hole n :: rest => lookupVar vars n ++ tplRender vars rest

/-- A brace-free literal chunk. -/
def goodLit (s : String) : Prop :=
  ∀ c ∈ s.data, c ≠ '\x7b' ∧ c ≠ '\x7d'

/-- A plain field name: nonempty, no field syntax characters, and not a
positional index. -/
def goodHole (n : String) : Prop :=
  n.data ≠ []
  ∧ (∀ c ∈ n.data, c ≠ ':' ∧ c ≠ '!' ∧ c ≠ '.' ∧ c ≠ '[' ∧ c ≠ ']' ∧ c ≠ '\x7b' ∧ c ≠ '\x7d')
  ∧ ¬(∀ c ∈ n.data, c.isDigit = true)

def goodPart : TplPart → Prop
  | .lit s => goodLit s
  | .hole n => goodHole n

def goodTpl (parts : List TplPart) : Prop := ∀ p ∈ parts, goodPart p

instance (s : String) : Decidable (goodLit s) :=
  inferInstanceAs (Decidable (∀ c ∈ s.data, c ≠ '\x7b' ∧ c ≠ '\x7d'))

instance (n : String) : Decidable (goodHole n) :=
  inferInstanceAs (Decidable (_ ∧ _ ∧ _))

instance (p : TplPart) : Decidable (goodPart p) :=
  match p with
  | .lit s => inferInstanceAs (Decidable (goodLit s))
  | .hole n => inferInstanceAs (Decidable (goodHole n))

instance (parts : List TplPart) : Decidable (goodTpl parts) :=
  inferInstanceAs (Decidable (∀ p ∈ parts, goodPart p))

/-! ## Structured-financial lookup (finance_service.py 116-162)

`pandas` rows are column-indexed string values (`df[col].astype(str)`); a
`DataFrame` is its column list plus its rows. -/

/-- `FinanceIntelService._norm_code`: keep the digits of `str(raw).strip()`;
keep the last six when six or more, else `zfill(6)` (left zero pad). -/
def normCode (raw : String) : String :=
  let digits := (strTrim raw).data.filter Char.isDigit
  if 6 ≤ digits.length then String.mk (digits.drop (digits.length - 6))
  else String.mk (List.replicate (6 - digits.length) '0' ++ digits)

/-- The 6-digit normalization as the spec's words describe it
("right-padded/truncated"): append zeros on the right, keep the first six
digits when longer.  Stated only to compare with `normCode`. -/
def normCodeSpecRight (raw : String) : String :=
  let digits := (strTrim raw).data.filter Char.isDigit
  if 6 ≤ digits.length then String.mk (digits.take 6)
  else String.mk (digits ++ List.replicate (6 - digits.length) '0')

structure DataFrame where
  columns : List String
  rows : List (String → String)

/-- The candidate code columns of `_filter_rows_by_code` (the literal list,
including its duplicated first entry). -/
def codeCols : List String :=
  ["股票代码", "代码", "证券代码", "股票代码", "symbol", "code", "SECUCODE", "SECURITY_CODE"]

/-- The column loop of `_filter_rows_by_code`: first listed column present
in the frame whose normalized values match the target non-emptily. -/
def findCodeHits (df : DataFrame) (target : String) : List String → Option (List (String → String))
  | [] => none
  | col :: rest =>
    if col ∈ df.columns then
      let hit := df.rows.filter (fun r => normCode (r col) = target)
      if hit.isEmpty then findCodeHits df target rest else some hit
    else findCodeHits df target rest

/-- `FinanceIntelService._filter_rows_by_code` (keeps `records[:3]`). -/
def filterRowsByCode (df : DataFrame) (stockCode : String) : List (String → String) :=
  match findCodeHits df (normCode stockCode) codeCols with
  | none => []
  | some hits => hits.take 3

/-! ## `_recent_quarter_dates` (finance_service.py 116-133)

`datetime.now().date()` is the `today` parameter.  `datetime(year, m, d)`
raises `ValueError` outside `MINYEAR..MAXYEAR`; `mkDateE` models that check
(month/day here are always one of the four fixed quarter-end pairs).  The
`while` loop is run on fuel `limit + 2`, enough for every terminating run,
and the `dates` list is accumulated reversed (Python appends). -/

structure PyDate where
  y : ℕ
  m : ℕ
  d : ℕ
deriving DecidableEq

/-- Dates compare lexicographically; with `m ≤ 12`, `d ≤ 31` this encoding
is order-faithful. -/
def encD (a : PyDate) : ℕ := a.y * 10000 + a.m * 100 + a.d

def dateLe (a b : PyDate) : Bool := decide (encD a ≤ encD b)

def mkDateE (y m d : ℕ) : Except String PyDate :=
  if 1 ≤ y ∧ y ≤ 9999 then .ok ⟨y, m, d⟩ else .error "year is out of range"

/-- `reversed(quarter_ends)`. -/
def quarterEndsRev : List (ℕ × ℕ) := [(12, 31), (9, 30), (6, 30), (3, 31)]

/-- One year of the generation loop: walk the reversed quarter ends,
append those not after `today`, stop as soon as `limit` is reached.
`c` caches `len(dates)` and `racc` is the reversed `dates` list. -/
def innerQ (limit : ℕ) (today : PyDate) (year : ℕ) :
    List (ℕ × ℕ) → ℕ → List PyDate → Except String (ℕ × List PyDate)
  | [], c, racc => .ok (c, racc)
  | (m, d) :: rest, c, racc =>
    match mkDateE year m d with
    | .error e => .error e
    | .ok dt =>
      let c2 := if dateLe dt today then c + 1 else c
      let racc2 := if dateLe dt today then dt :: racc else racc
      if limit ≤ c2 then .ok (c2, racc2) else innerQ limit today year rest c2 racc2

/-- `while len(dates) < limit:` walking `year` downward. -/
def yearLoop (limit : ℕ) (today : PyDate) : ℕ → ℕ → ℕ → List PyDate → Except String (List PyDate)
  | 0, _, _, racc => .ok racc
  | fuel + 1, year, c, racc =>
    if limit ≤ c then .ok racc
    else
      match innerQ limit today year quarterEndsRev c racc with
      | .error e => .error e
      | .ok (c2, racc2) => yearLoop limit today fuel (year - 1) c2 racc2

/-- `FinanceIntelService._recent_quarter_dates`, date values. -/
def recentQuarterVals (limit : ℕ) (today : PyDate) : Except String (List PyDate) :=
  Except.map List.reverse (yearLoop limit today (limit + 2) today.y 0 [])

/-- `dt.strftime("%Y-%m-%d")`. -/
def padNum (width n : ℕ) : String :=
  String.mk (List.replicate (width - (toString n).length) '0' ++ (toString n).data)

def formatQDate (dt : PyDate) : String :=
  padNum 4 dt.y ++ "-" ++ padNum 2 dt.m ++ "-" ++ padNum 2 dt.d

/-- `FinanceIntelService._recent_quarter_dates` (the returned strings). -/
def recentQuarterDates (limit : ℕ) (today : PyDate) : Except String (List String) :=
  Except.map (List.map formatQDate) (recentQuarterVals limit today)

/-- A valid `datetime.date` for the fields this model compares. -/
def validDate (t : PyDate) : Prop :=
  1 ≤ t.y ∧ t.y ≤ 9999 ∧ 1 ≤ t.m ∧ t.m ≤ 12 ∧ 1 ≤ t.d ∧ t.d ≤ 31

/-! ## Sentiment fetcher (sentiment_service.py 83-174)

The network is an environment: DNS outcome, warm-up behaviour and the
search response.  `fetchSentiment` also returns the list of network calls
the control flow actually attempts, in order. -/

structure SentimentResult where
  sampleCount : ℕ
  highlights : List String
  kolHighlights : List String
  error : Option String
deriving DecidableEq

inductive NetCall where
  | dns
  | warmup
  | search
deriving DecidableEq

/-- A raw `user` object of a post. -/
structure XueqiuUser where
  screenName : Option String
  name : Option String
  nickname : Option String

/-- A raw post object; absent JSON fields are `none`. -/
structure XueqiuItem where
  text : Option String
  description : Option String
  title : Option String
  user : Option XueqiuUser
  screenName : Option String
  userName : Option String
  username : Option String
  author : Option String

/-- What the search endpoint does when called. -/
inductive SearchOutcome where
  | timeout : String → SearchOutcome
  | connError : String → SearchOutcome
  | otherError : String → SearchOutcome
  | response : ℕ → Bool → List XueqiuItem → SearchOutcome

structure XueqiuEnv where
  dnsOk : Bool
  dnsErr : String
  warmupRaises : Bool
  searchOutcome : SearchOutcome

/-- `x or y or ... or ""` over optional strings (`None`/`""` falsy). -/
def pyOrStr : List (Option String) → String
  | [] => ""
  | some s :: rest => if s = "" then pyOrStr rest else s
  | none :: rest => pyOrStr rest

/-- `re.sub(r"<[^>]+>", "", text)` as a scan; `some acc` means a potential
tag is open, `acc` the chars after `<` reversed. -/
def stripTagsGo : List Char → Option (List Char) → List Char
  | [], none => []
  | [], some acc => '<' :: acc.reverse
  | c :: rest, none =>
    if c = '<' then stripTagsGo rest (some [])
    else c :: stripTagsGo rest none
  | c :: rest, some acc =>
    if c = '>' then
      if acc.isEmpty then '<' :: '>' :: stripTagsGo rest none
      else stripTagsGo rest none
    else stripTagsGo rest (some (c :: acc))

def stripTags (s : String) : String :=
  String.mk (stripTagsGo s.data none)

/-- `re.sub(r"\s+", " ", text).strip()`; the flag records a pending
whitespace run. -/
def collapseWsGo : List Char → Bool → List Char
  | [], _ => []
  | c :: rest, pend =>
    if isPySpace c then collapseWsGo rest true
    else (if pend then [' ', c] else [c]) ++ collapseWsGo rest false

def collapseWs (s : String) : String :=
  strTrim (String.mk (collapseWsGo s.data false))

/-- `XueqiuSentimentService._extract_text`. -/
def extractText (item : XueqiuItem) : String :=
  collapseWs (stripTags (pyOrStr [item.text, item.description, item.title]))

/-- `XueqiuSentimentService._extract_author`. -/
def extractAuthor (item : XueqiuItem) : String :=
  match item.user with
  | some u => strTrim (pyOrStr [u.screenName, u.name, u.nickname])
  | none =>
    match pyOrStr [item.screenName, item.userName, item.username, item.author] with
    | "" => ""
    | v => strTrim v

/-- The body of `_fetch_sentiment` after the DNS pre-flight succeeded:
warm-up (errors ignored), then the search call. -/
def fetchSentimentOnline (env : XueqiuEnv) (kolUsers : List String) :
    SentimentResult × List NetCall :=
  let calls := [NetCall.warmup, NetCall.search]
  match env.searchOutcome with
  | .timeout msg => (⟨0, [], [], some ("请求超时: " ++ msg)⟩, calls)
  | .connError msg => (⟨0, [], [], some ("网络连接失败（可能为DNS/网络不可达）: " ++ msg)⟩, calls)
  | .otherError msg => (⟨0, [], [], some msg⟩, calls)
  | .response status isJson rawList =>
    if status ≠ 200 then (⟨0, [], [], some ("HTTP " ++ toString status)⟩, calls)
    else
      let raw := if isJson then rawList else []
      let posts := raw.filterMap (fun item =>
        let t := extractText item
        if t ≠ "" then some (t, extractAuthor item) else none)
      if posts.isEmpty then (⟨0, [], [], none⟩, calls)
      else
        let highlights := (posts.take 5).map Prod.fst
        let kolHighlights :=
          if kolUsers.isEmpty then []
          else posts.filterMap (fun p =>
            if p.2 ≠ "" ∧ strLower p.2 ∈ kolUsers then
              some ("@" ++ p.2 ++ ": " ++ takeChars 120 p.1)
            else none)
        (⟨posts.length, highlights, kolHighlights, none⟩, calls)

/-- The user-facing DNS failure message of the pre-flight check. -/
def dnsFailMsg (e : String) : String :=
  "DNS解析失败（xueqiu.com）: " ++ e ++ "，请检查容器 DNS / 代理配置"

/-- `XueqiuSentimentService._fetch_sentiment`; `kolUsers` is the lowercased
watch-list built in `__init__`. -/
def fetchSentiment (env : XueqiuEnv) (kolUsers : List String) :
    SentimentResult × List NetCall :=
  if env.dnsOk then
    let (r, cs) := fetchSentimentOnline env kolUsers
    (r, NetCall.dns :: cs)
  else
    (⟨0, [], [], some (dnsFailMsg env.dnsErr)⟩, [NetCall.dns])

/-! ## The run loop of the orchestrator (pipeline.py 625-758)

Per-symbol processing (`process_single_stock`) catches every exception and
returns a result or `None`; the pool collects one outcome per submitted
symbol, so the per-symbol behaviour is an oracle `String → Option R`.
In dry-run mode (`skip_analysis=True`) it always returns `None` and the
final success count instead counts `db.has_today_data`.  Counts are `ℤ`
(Python ints). -/

structure RunReport (R : Type) where
  configErrorLogged : Bool
  processed : List String
  results : List R
  successCount : ℤ
  failCount : ℤ

/-- `StockAnalysisPipeline.run`: symbol resolution, the empty-list abort,
result collection and the end-of-run success/failure counts. -/
def runPipeline {R : Type} (explicitCodes : Option (List String)) (configList : List String)
    (dryRun : Bool) (outcome : String → Option R) (hasToday : String → Bool) : RunReport R :=
  let stockCodes :=
    match explicitCodes with
    | none => configList
    | some cs => cs
  if stockCodes.isEmpty then
    { configErrorLogged := true, processed := [], results := [],
      successCount := 0, failCount := 0 }
  else
    let results := stockCodes.filterMap (fun c => if dryRun then none else outcome c)
    let successCount : ℤ :=
      if dryRun then (stockCodes.countP hasToday : ℤ) else (results.length : ℤ)
    { configErrorLogged := false, processed := stockCodes, results := results,
      successCount := successCount,
      failCount := (stockCodes.length : ℤ) - successCount }

/-! ## `_enhance_context` (pipeline.py 367-446)

Python dictionaries are mutable objects: the heap is a list of dictionaries
addressed by index, a dictionary an insertion-ordered association list, and
nested dictionaries are stored by reference (`vRef`).  `context.copy()`
allocates a fresh dictionary with the same top-level entries; every
subsequent `enhanced[k] = v` writes through the fresh address only. -/

inductive PyVal where
  | vStr : String → PyVal
  | vNum : ℚ → PyVal
  | vNone : PyVal
  | vRef : ℕ → PyVal
  | vList : List PyVal → PyVal
  | vTag : String → PyVal

/-- `v is None`. -/
def PyVal.isVNone : PyVal → Bool
  | .vNone => true
  | _ => false

abbrev PyDict := List (String × PyVal)

abbrev Heap := List PyDict

/-- `d[k] = v`: replace in place when present, else append. -/
def dictSet : PyDict → String → PyVal → PyDict
  | [], k, v => [(k, v)]
  | (k2, v2) :: rest, k, v =>
    if k2 = k then (k, v) :: rest else (k2, v2) :: dictSet rest k v

/-- Allocate a fresh dictionary object; its address is the old heap size. -/
def heapAlloc (h : Heap) (d : PyDict) : Heap × ℕ :=
  (h ++ [d], h.length)

def heapGet (h : Heap) (a : ℕ) : PyDict :=
  (List.getD h a [])

/-- `h[a][k] = v`. -/
def heapWrite (h : Heap) (a : ℕ) (k : String) (v : PyVal) : Heap :=
  h.set a (dictSet (heapGet h a) k v)

/-- The fields `_enhance_context` reads from a `UnifiedRealtimeQuote` with
`getattr(..., field, default)`; numeric fields are `ℚ` when present. -/
structure RealtimeQuote where
  name : Option String
  price : Option ℚ
  changePct : Option ℚ
  volumeRatio : Option ℚ
  turnoverRate : Option ℚ
  peRatio : Option ℚ
  pbRatio : Option ℚ
  totalMv : Option ℚ
  circMv : Option ℚ
  change60d : Option ℚ
  source : Option PyVal

/-- `ChipDistribution` as consumed here; `chipStatus` models the external
`get_chip_status(price)` of the data-provider package (not under src/). -/
structure ChipData where
  profitRatio : ℚ
  avgCost : ℚ
  concentration90 : ℚ
  concentration70 : ℚ
  chipStatus : ℚ → String

/-- `TrendAnalysisResult` as consumed here (each field already the `.value`
payload read by `_enhance_context`). -/
structure TrendData where
  trendStatus : PyVal
  maAlignment : PyVal
  trendStrength : PyVal
  biasMa5 : PyVal
  biasMa10 : PyVal
  volumeStatus : PyVal
  volumeTrend : PyVal
  buySignal : PyVal
  signalScore : PyVal
  signalReasons : PyVal
  riskFactors : PyVal

/-- `StockAnalysisPipeline._describe_volume_ratio`. -/
def describeVolumeRatio (volumeRatio : ℚ) : String :=
  if volumeRatio < 1/2 then "极度萎缩"
  else if volumeRatio < 4/5 then "明显萎缩"
  else if volumeRatio < 6/5 then "正常"
  else if volumeRatio < 2 then "温和放量"
  else if volumeRatio < 3 then "明显放量"
  else "巨量"

def optNum : Option ℚ → PyVal
  | some q => .vNum q
  | none => .vNone

/-- The `enhanced['realtime'] = {...}` dictionary literal. -/
def realtimeDictOf (q : RealtimeQuote) : PyDict :=
  [("name", .vStr (q.name.getD "")),
   ("price", optNum q.price),
   ("change_pct", optNum q.changePct),
   ("volume_ratio", optNum q.volumeRatio),
   ("volume_ratio_desc", .vStr (match q.volumeRatio with
      | some v => if v ≠ 0 then describeVolumeRatio v else "无数据"
      | none => "无数据")),
   ("turnover_rate", optNum q.turnoverRate),
   ("pe_ratio", optNum q.peRatio),
   ("pb_ratio", optNum q.pbRatio),
   ("total_mv", optNum q.totalMv),
   ("circ_mv", optNum q.circMv),
   ("change_60d", optNum q.change60d),
   ("source", q.source.getD .vNone)]

/-- The `enhanced['chip'] = {...}` dictionary literal. -/
def chipDictOf (cd : ChipData) (currentPrice : ℚ) : PyDict :=
  [("profit_ratio", .vNum cd.profitRatio),
   ("avg_cost", .vNum cd.avgCost),
   ("concentration_90", .vNum cd.concentration90),
   ("concentration_70", .vNum cd.concentration70),
   ("chip_status", .vStr (cd.chipStatus (if currentPrice = 0 then 0 else currentPrice)))]

/-- The `enhanced['trend_analysis'] = {...}` dictionary literal. -/
def trendDictOf (t : TrendData) : PyDict :=
  [("trend_status", t.trendStatus),
   ("ma_alignment", t.maAlignment),
   ("trend_strength", t.trendStrength),
   ("bias_ma5", t.biasMa5),
   ("bias_ma10", t.biasMa10),
   ("volume_status", t.volumeStatus),
   ("volume_trend", t.volumeTrend),
   ("buy_signal", t.buySignal),
   ("signal_score", t.signalScore),
   ("signal_reasons", t.signalReasons),
   ("risk_factors", t.riskFactors)]

/-- The `stock_name` block: `if stock_name: ... elif realtime_quote and
getattr(realtime_quote, 'name', None): ...`. -/
def enhanceStockName (h : Heap) (e : ℕ) (q : Option RealtimeQuote) (stockName : String) : Heap :=
  if stockName ≠ "" then heapWrite h e "stock_name" (.vStr stockName)
  else
    match q with
    | some qq =>
      if (qq.name.getD "") ≠ "" then heapWrite h e "stock_name" (.vStr (qq.name.getD ""))
      else h
    | none => h

/-- The realtime block: build the dict, store it, then rebuild it filtered
of `None` values (a fresh comprehension dict) and store that. -/
def enhanceRealtime (h : Heap) (e : ℕ) (q : Option RealtimeQuote) : Heap :=
  match q with
  | none => h
  | some qq =>
    let (h1, a1) := heapAlloc h (realtimeDictOf qq)
    let h2 := heapWrite h1 e "realtime" (.vRef a1)
    let filtered := (heapGet h2 a1).filter (fun kv => !kv.2.isVNone)
    let (h3, a2) := heapAlloc h2 filtered
    heapWrite h3 e "realtime" (.vRef a2)

/-- The chip block (`current_price = getattr(realtime_quote, 'price', 0)
if realtime_quote else 0`). -/
def enhanceChip (h : Heap) (e : ℕ) (q : Option RealtimeQuote) (chip : Option ChipData) : Heap :=
  match chip with
  | none => h
  | some cd =>
    let currentPrice : ℚ :=
      match q with
      | some qq => qq.price.getD 0
      | none => 0
    let (h1, a3) := heapAlloc h (chipDictOf cd currentPrice)
    heapWrite h1 e "chip" (.vRef a3)

/-- The trend block. -/
def enhanceTrend (h : Heap) (e : ℕ) (trend : Option TrendData) : Heap :=
  match trend with
  | none => h
  | some t =>
    let (h1, a4) := heapAlloc h (trendDictOf t)
    heapWrite h1 e "trend_analysis" (.vRef a4)

/-- `StockAnalysisPipeline._enhance_context` on the heap: `ctx` is the
address of the `context` argument; returns the heap and the address of the
returned `enhanced` dictionary. -/
def enhanceContext (h : Heap) (ctx : ℕ) (q : Option RealtimeQuote)
    (chip : Option ChipData) (trend : Option TrendData) (stockName : String) : Heap × ℕ :=
  let (h1, e) := heapAlloc h (heapGet h ctx)
  let h2 := enhanceStockName h1 e q stockName
  let h3 := enhanceRealtime h2 e q
  let h4 := enhanceChip h3 e q chip
  let h5 := enhanceTrend h4 e trend
  (h5, e)

/-- `h1` extends `h0`: no pre-existing dictionary object was touched. -/
def heapPreserved (h0 h1 : Heap) : Prop :=
  h0.length ≤ h1.length ∧ ∀ i, i < h0.length → h1[i]? = h0[i]?

/-! ## Theorems -/

theorem getRouteFailCount_record (now : ℚ) (route : String) (st : RouteState) :
    getRouteFailCount (recordRouteFailure now route st) route = getRouteFailCount st route + 1 := by
  simp [recordRouteFailure, getRouteFailCount]

theorem applyFailures_count (ts : List ℚ) (route : String) (st : RouteState) :
    getRouteFailCount (applyFailures ts route st) route
      = getRouteFailCount st route + ts.length := by
  induction ts generalizing st with
  | nil => simp [applyFailures]
  | cons t ts ih =>
    have : applyFailures (t :: ts) route st = applyFailures ts route (recordRouteFailure t route st) := rfl
    rw [this, ih, getRouteFailCount_record]
    simp
    omega

theorem applyFailures_lastTs (pre : List ℚ) (t : ℚ) (route : String) (st : RouteState) :
    (applyFailures (pre ++ [t]) route st).lastFailTs route = some t := by
  unfold applyFailures
  rw [List.foldl_append]
  simp [recordRouteFailure]

/-- C3: after the threshold (3) of consecutive recorded failures on a route,
`_should_skip_route` answers true exactly while the elapsed time since the
last recorded failure is under the 15-minute cooldown and false once the
cooldown has elapsed; one recorded success removes the route's entries, so
its failure count reads zero and the route is no longer skipped. -/
theorem route_circuit_breaker (st0 : RouteState) (route : String) (pre : List ℚ) (t : ℚ)
    (hpre : 2 ≤ pre.length) :
    (∀ now : ℚ, now - t < 900 →
      shouldSkipRoute now (applyFailures (pre ++ [t]) route st0) route = true)
  ∧ (∀ now : ℚ, 900 ≤ now - t →
      shouldSkipRoute now (applyFailures (pre ++ [t]) route st0) route = false)
  ∧ (∀ st : RouteState,
      (recordRouteSuccess route st).failCounts route = none
    ∧ (recordRouteSuccess route st).lastFailTs route = none
    ∧ getRouteFailCount (recordRouteSuccess route st) route = 0
    ∧ ∀ now : ℚ, shouldSkipRoute now (recordRouteSuccess route st) route = false) := by
  have hcount : getRouteFailCount (applyFailures (pre ++ [t]) route st0) route
      = getRouteFailCount st0 route + (pre.length + 1) := by
    rw [applyFailures_count]
    simp
  have hnotlt : ¬ getRouteFailCount (applyFailures (pre ++ [t]) route st0) route
      < routeFailThreshold := by
    rw [hcount]
    unfold routeFailThreshold
    omega
  have hts : getRouteLastTs (applyFailures (pre ++ [t]) route st0) route = t := by
    unfold getRouteLastTs
    rw [applyFailures_lastTs]
    rfl
  refine ⟨?_, ?_, ?_⟩
  · intro now hnow
    unfold shouldSkipRoute
    rw [if_neg hnotlt, hts]
    exact decide_eq_true (by unfold routeCooldownSeconds; linarith)
  · intro now hnow
    unfold shouldSkipRoute
    rw [if_neg hnotlt, hts]
    exact decide_eq_false (by unfold routeCooldownSeconds; linarith)
  · intro st
    refine ⟨by simp [recordRouteSuccess], by simp [recordRouteSuccess], ?_, ?_⟩
    · simp [recordRouteSuccess, getRouteFailCount]
    · intro now
      unfold shouldSkipRoute
      rw [if_pos]
      simp [recordRouteSuccess, getRouteFailCount, routeFailThreshold]

theorem route_circuit_breaker_witness :
    shouldSkipRoute 100 (applyFailures [1, 2, 3] "r" emptyRouteState) "r" = true
  ∧ shouldSkipRoute 1000 (applyFailures [1, 2, 3] "r" emptyRouteState) "r" = false
  ∧ getRouteFailCount
      (recordRouteSuccess "r" (applyFailures [1, 2, 3] "r" emptyRouteState)) "r" = 0 :=
  ⟨(route_circuit_breaker emptyRouteState "r" [1, 2] 3 (by norm_num)).1 100 (by norm_num),
   (route_circuit_breaker emptyRouteState "r" [1, 2] 3 (by norm_num)).2.1 1000 (by norm_num),
   ((route_circuit_breaker emptyRouteState "r" [1, 2] 3 (by norm_num)).2.2
     (applyFailures [1, 2, 3] "r" emptyRouteState)).2.2.1⟩

/-- C1: for a run over a non-empty symbol list, in normal as well as dry-run
mode (the `dryRun` argument covers both), the success count plus the failure
count reported at the end of `run` equals the number of input symbols, and
every input symbol was submitted for processing. -/
theorem run_counts_cover_symbols {R : Type} (codes configList : List String) (dryRun : Bool)
    (outcome : String → Option R) (hasToday : String → Bool) (h : codes ≠ []) :
    (runPipeline (some codes) configList dryRun outcome hasToday).successCount
      + (runPipeline (some codes) configList dryRun outcome hasToday).failCount
      = (codes.length : ℤ)
  ∧ (runPipeline (some codes) configList dryRun outcome hasToday).processed = codes := by
  have hne : ¬ (codes.isEmpty = true) := by
    simpa [List.isEmpty_iff] using h
  constructor
  · unfold runPipeline
    rw [if_neg hne]
    ring
  · unfold runPipeline
    rw [if_neg hne]

theorem run_counts_cover_symbols_witness :
    (runPipeline (R := ℕ) (some ["600519", "000001"]) [] false
        (fun _ => none) (fun _ => true)).successCount
      + (runPipeline (R := ℕ) (some ["600519", "000001"]) [] false
          (fun _ => none) (fun _ => true)).failCount = 2
  ∧ (runPipeline (R := ℕ) (some ["600519", "000001"]) [] true
        (fun _ => none) (fun _ => true)).successCount
      + (runPipeline (R := ℕ) (some ["600519", "000001"]) [] true
          (fun _ => none) (fun _ => true)).failCount = 2 :=
  ⟨(run_counts_cover_symbols ["600519", "000001"] [] false
      (fun _ => none) (fun _ => true) (by decide)).1,
   (run_counts_cover_symbols ["600519", "000001"] [] true
      (fun _ => none) (fun _ => true) (by decide)).1⟩

/-- C2: when the resolved symbol list is empty — whether the explicit
argument is the empty list or no argument is given and the configured
watch-list is empty — `run` reports the configuration error and aborts
immediately: nothing is processed and zero results are returned.  (The
code reports the `ConfigurationError` condition by logging and returning
`[]`; no exception object is raised.) -/
theorem run_empty_symbols_aborts {R : Type} (configList : List String) (dryRun : Bool)
    (outcome : String → Option R) (hasToday : String → Bool) :
    runPipeline (some []) configList dryRun outcome hasToday
      = ⟨true, [], [], 0, 0⟩
  ∧ runPipeline (none : Option (List String)) [] dryRun outcome hasToday
      = ⟨true, [], [], 0, 0⟩ :=
  ⟨rfl, rfl⟩

/-- C7 counterexample: `_norm_code` left-pads with zeros (`zfill`), not
right: on `"12"` the code yields `"000012"` while the spec's
"right-padded" normalization yields `"120000"`. -/
theorem norm_code_pad_direction_cex :
    normCode "12" = "000012"
  ∧ normCodeSpecRight "12" = "120000"
  ∧ normCode "12" ≠ normCodeSpecRight "12" := by
  refine ⟨by decide, by decide, by decide⟩

/-- C7 (amended): `_norm_code` always returns a 6-digit string, obtained by
keeping the *last* six digits when there are six or more and otherwise
*left*-padding with zeros; and `_filter_rows_by_code` keeps at most 3
matching rows per dataset. -/
theorem norm_code_and_row_cap (raw stockCode : String) (df : DataFrame) :
    (normCode raw).length = 6
  ∧ (normCode raw).data.all Char.isDigit = true
  ∧ (filterRowsByCode df stockCode).length ≤ 3
  ∧ (6 ≤ ((strTrim raw).data.filter Char.isDigit).length →
      (normCode raw).data = ((strTrim raw).data.filter Char.isDigit).drop
        (((strTrim raw).data.filter Char.isDigit).length - 6))
  ∧ (((strTrim raw).data.filter Char.isDigit).length < 6 →
      (normCode raw).data
        = List.replicate (6 - ((strTrim raw).data.filter Char.isDigit).length) '0'
          ++ (strTrim raw).data.filter Char.isDigit) := by
  refine ⟨?_, ?_, ?_, ?_, ?_⟩
  · simp only [normCode]
    split
    · next hle =>
      simp only [String.length]
      rw [List.length_drop]
      omega
    · next hlt =>
      simp only [String.length]
      rw [List.length_append, List.length_replicate]
      omega
  · simp only [normCode]
    split
    · next hle =>
      simp only [List.all_eq_true]
      intro c hc
      have : c ∈ (strTrim raw).data.filter Char.isDigit := List.mem_of_mem_drop hc
      exact (List.mem_filter.mp this).2
    · next hlt =>
      simp only [List.all_eq_true]
      intro c hc
      rcases List.mem_append.mp hc with hrep | hfil
      · rw [List.eq_of_mem_replicate hrep]
        decide
      · exact (List.mem_filter.mp hfil).2
  · unfold filterRowsByCode
    cases findCodeHits df (normCode stockCode) codeCols with
    | none => simp
    | some hits =>
      simp only [List.length_take]
      omega
  · intro hle
    simp only [normCode]
    rw [if_pos hle]
  · intro hlt
    simp only [normCode]
    rw [if_neg (by omega)]

theorem norm_code_and_row_cap_witness :
    6 ≤ ((strTrim "1234567").data.filter Char.isDigit).length
  ∧ (normCode "1234567").data = ((strTrim "1234567").data.filter Char.isDigit).drop
      (((strTrim "1234567").data.filter Char.isDigit).length - 6) :=
  ⟨by decide, (norm_code_and_row_cap "1234567" "" ⟨[], []⟩).2.2.2.1 (by decide)⟩

/-- C8: when the pre-flight DNS resolution fails, `_fetch_sentiment`
returns at once the `SentimentResult` carrying the dedicated DNS error
message with zero samples and empty highlight lists, and neither the
HTTP warm-up nor the search call is attempted. -/
theorem sentiment_dns_short_circuit (env : XueqiuEnv) (kolUsers : List String)
    (h : env.dnsOk = false) :
    fetchSentiment env kolUsers
      = (⟨0, [], [], some (dnsFailMsg env.dnsErr)⟩, [NetCall.dns])
  ∧ NetCall.warmup ∉ (fetchSentiment env kolUsers).2
  ∧ NetCall.search ∉ (fetchSentiment env kolUsers).2 := by
  have heq : fetchSentiment env kolUsers
      = (⟨0, [], [], some (dnsFailMsg env.dnsErr)⟩, [NetCall.dns]) := by
    simp [fetchSentiment, h]
  refine ⟨heq, ?_, ?_⟩ <;> rw [heq] <;> simp

theorem sentiment_dns_short_circuit_witness :
    fetchSentiment ⟨false, "gaierror -2", false, SearchOutcome.otherError "x"⟩ ["kol"]
      = (⟨0, [], [], some (dnsFailMsg "gaierror -2")⟩, [NetCall.dns]) :=
  (sentiment_dns_short_circuit ⟨false, "gaierror -2", false, SearchOutcome.otherError "x"⟩
    ["kol"] rfl).1

theorem dedupeGo_sublist (items : List NewsItem) : ∀ seen, List.Sublist (dedupeGo items seen) items := by
  induction items with
  | nil => intro seen; simp [dedupeGo]
  | cons it rest ih =>
    intro seen
    unfold dedupeGo
    split
    · exact (ih seen).cons it
    · exact (ih _).cons₂ it

theorem dedupeGo_keys (items : List NewsItem) :
    ∀ seen, ((dedupeGo items seen).map itemKey).Nodup
      ∧ ∀ k ∈ (dedupeGo items seen).map itemKey, k ∉ seen := by
  induction items with
  | nil => intro seen; simp [dedupeGo]
  | cons it rest ih =>
    intro seen
    unfold dedupeGo
    split
    · next hmem => exact ih seen
    · next hmem =>
      obtain ⟨ihN, ihS⟩ := ih (itemKey it :: seen)
      refine ⟨?_, ?_⟩
      · simp only [List.map_cons, List.nodup_cons]
        refine ⟨fun hk => ?_, ihN⟩
        exact ihS _ hk (List.mem_cons_self _ _)
      · intro k hk
        simp only [List.map_cons, List.mem_cons] at hk
        rcases hk with rfl | hk
        · exact hmem
        · intro hks
          exact ihS k hk (List.mem_cons_of_mem _ hks)

theorem dedupeGo_find (items : List NewsItem) :
    ∀ (seen : List String) (it : NewsItem), it ∈ items → itemKey it ∉ seen →
      ∃ f, items.find? (fun x => itemKey x == itemKey it) = some f
        ∧ f ∈ dedupeGo items seen := by
  induction items with
  | nil => intro seen it h; simp at h
  | cons x rest ih =>
    intro seen it hmem hnot
    by_cases hkey : itemKey x = itemKey it
    · refine ⟨x, ?_, ?_⟩
      · rw [List.find?_cons_of_pos _ (by simp [hkey])]
      · have hx : itemKey x ∉ seen := by rwa [hkey]
        unfold dedupeGo
        rw [if_neg hx]
        exact List.mem_cons_self x _
    · have hmem2 : it ∈ rest := by
        rcases List.mem_cons.mp hmem with rfl | h
        · exact absurd rfl hkey
        · exact h
      unfold dedupeGo
      split
      · next hseen =>
        obtain ⟨f, hf, hfd⟩ := ih seen it hmem2 hnot
        exact ⟨f, by rw [List.find?_cons_of_neg _ (by simp [hkey])]; exact hf, hfd⟩
      · next hseen =>
        obtain ⟨f, hf, hfd⟩ := ih (itemKey x :: seen) it hmem2 (by
          intro hc
          rcases List.mem_cons.mp hc with heq | h
          · exact hkey heq.symm
          · exact hnot h)
        exact ⟨f, by rw [List.find?_cons_of_neg _ (by simp [hkey])]; exact hf,
          List.mem_cons_of_mem _ hfd⟩

/-- C4: `_dedupe_items` collapses items by the key (whitespace-stripped
lowercased title, trimmed lowercased link): the output is a subsequence of
the input (order preserved), its keys are pairwise distinct, and every input
item is represented by the first input occurrence of its key; in particular
the spec's two example items — titles `A 公司 利好` / `a 公司 利好` and
links differing only in letter case — collapse to the first item. -/
theorem dedupe_collapses_by_key (items : List NewsItem) :
    List.Sublist (dedupeItems items) items
  ∧ ((dedupeItems items).map itemKey).Nodup
  ∧ (∀ it ∈ items, ∃ f, items.find? (fun x => itemKey x == itemKey it) = some f
      ∧ f ∈ dedupeItems items)
  ∧ dedupeItems
      [⟨"A 公司 利好", "https://cls.cn/x", some 0, ""⟩,
       ⟨"a 公司 利好", "HTTPS://CLS.CN/X", some 1, ""⟩]
    = [⟨"A 公司 利好", "https://cls.cn/x", some 0, ""⟩] := by
  refine ⟨dedupeGo_sublist items [], (dedupeGo_keys items []).1, ?_, by decide⟩
  intro it hmem
  exact dedupeGo_find items [] it hmem (by simp)

theorem dedupe_collapses_by_key_witness :
    ∃ f, [(⟨"A 公司 利好", "https://cls.cn/x", some 0, ""⟩ : NewsItem),
          ⟨"a 公司 利好", "HTTPS://CLS.CN/X", some 1, ""⟩].find?
        (fun x => itemKey x == itemKey (⟨"a 公司 利好", "HTTPS://CLS.CN/X", some 1, ""⟩ : NewsItem))
        = some f
      ∧ f ∈ dedupeItems
          [⟨"A 公司 利好", "https://cls.cn/x", some 0, ""⟩,
           ⟨"a 公司 利好", "HTTPS://CLS.CN/X", some 1, ""⟩] :=
  (dedupe_collapses_by_key
      [⟨"A 公司 利好", "https://cls.cn/x", some 0, ""⟩,
       ⟨"a 公司 利好", "HTTPS://CLS.CN/X", some 1, ""⟩]).2.2.1
    ⟨"a 公司 利好", "HTTPS://CLS.CN/X", some 1, ""⟩ (by decide)

theorem heapPreserved_refl (h : Heap) : heapPreserved h h :=
  ⟨le_refl _, fun _ _ => rfl⟩

theorem heapPreserved_trans {h0 h1 h2 : Heap} (a : heapPreserved h0 h1)
    (b : heapPreserved h1 h2) : heapPreserved h0 h2 :=
  ⟨le_trans a.1 b.1, fun i hi => (b.2 i (lt_of_lt_of_le hi a.1)).trans (a.2 i hi)⟩

theorem heapPreserved_alloc (h : Heap) (d : PyDict) : heapPreserved h (h ++ [d]) := by
  refine ⟨by simp, fun i hi => List.getElem?_append_left hi⟩

theorem heapPreserved_write {h0 h : Heap} (hp : heapPreserved h0 h) {a : ℕ}
    (ha : h0.length ≤ a) (k : String) (v : PyVal) :
    heapPreserved h0 (heapWrite h a k v) := by
  refine ⟨?_, fun i hi => ?_⟩
  · rw [heapWrite, List.length_set]
    exact hp.1
  · rw [heapWrite, List.getElem?_set_ne (by omega)]
    exact hp.2 i hi

theorem enhanceStockName_preserves {h0 h : Heap} (hp : heapPreserved h0 h) {e : ℕ}
    (he : h0.length ≤ e) (q : Option RealtimeQuote) (sn : String) :
    heapPreserved h0 (enhanceStockName h e q sn) := by
  unfold enhanceStockName
  by_cases hs : sn ≠ ""
  · rw [if_pos hs]
    exact heapPreserved_write hp he _ _
  · rw [if_neg hs]
    cases q with
    | none => exact hp
    | some qq =>
      show heapPreserved h0 (if (qq.name.getD "") ≠ "" then _ else h)
      by_cases hn : (qq.name.getD "") ≠ ""
      · rw [if_pos hn]
        exact heapPreserved_write hp he _ _
      · rw [if_neg hn]
        exact hp

theorem enhanceRealtime_preserves {h0 h : Heap} (hp : heapPreserved h0 h) {e : ℕ}
    (he : h0.length ≤ e) (q : Option RealtimeQuote) :
    heapPreserved h0 (enhanceRealtime h e q) := by
  cases q with
  | none => exact hp
  | some qq =>
    simp only [enhanceRealtime, heapAlloc]
    exact heapPreserved_write
      (heapPreserved_trans
        (heapPreserved_write (heapPreserved_trans hp (heapPreserved_alloc _ _)) he _ _)
        (heapPreserved_alloc _ _))
      he _ _

theorem enhanceChip_preserves {h0 h : Heap} (hp : heapPreserved h0 h) {e : ℕ}
    (he : h0.length ≤ e) (q : Option RealtimeQuote) (chip : Option ChipData) :
    heapPreserved h0 (enhanceChip h e q chip) := by
  cases chip with
  | none => exact hp
  | some cd =>
    simp only [enhanceChip, heapAlloc]
    exact heapPreserved_write (heapPreserved_trans hp (heapPreserved_alloc _ _)) he _ _

theorem enhanceTrend_preserves {h0 h : Heap} (hp : heapPreserved h0 h) {e : ℕ}
    (he : h0.length ≤ e) (trend : Option TrendData) :
    heapPreserved h0 (enhanceTrend h e trend) := by
  cases trend with
  | none => exact hp
  | some t =>
    simp only [enhanceTrend, heapAlloc]
    exact heapPreserved_write (heapPreserved_trans hp (heapPreserved_alloc _ _)) he _ _

/-- C9: `_enhance_context` never mutates its `context` argument: the
returned dictionary is a freshly allocated object (its address is new), and
every dictionary that existed before the call — the input context at `ctx`
in particular — is byte-for-byte unchanged afterwards. -/
theorem enhance_context_no_mutation (h : Heap) (ctx : ℕ) (q : Option RealtimeQuote)
    (chip : Option ChipData) (trend : Option TrendData) (stockName : String) :
    (enhanceContext h ctx q chip trend stockName).2 = h.length
  ∧ h.length ≤ (enhanceContext h ctx q chip trend stockName).1.length
  ∧ ∀ i, i < h.length →
      (enhanceContext h ctx q chip trend stockName).1[i]? = h[i]? := by
  have hrep : enhanceContext h ctx q chip trend stockName
      = (enhanceTrend
          (enhanceChip
            (enhanceRealtime
              (enhanceStockName (h ++ [heapGet h ctx]) h.length q stockName)
              h.length q)
            h.length q chip)
          h.length trend, h.length) := rfl
  have hp : heapPreserved h (enhanceContext h ctx q chip trend stockName).1 := by
    rw [hrep]
    exact enhanceTrend_preserves
      (enhanceChip_preserves
        (enhanceRealtime_preserves
          (enhanceStockName_preserves (heapPreserved_alloc h _) (le_refl _) q stockName)
          (le_refl _) q)
        (le_refl _) q chip)
      (le_refl _) trend
  exact ⟨by rw [hrep], hp.1, hp.2⟩

theorem enhance_context_no_mutation_witness :
    (enhanceContext [[("code", PyVal.vStr "600519")]] 0
        (some ⟨some "贵州茅台", some 1500, none, some 2, none, none, none, none, none, none, none⟩)
        none none "贵州茅台").1[0]?
      = some [("code", PyVal.vStr "600519")] :=
  ((enhance_context_no_mutation [[("code", PyVal.vStr "600519")]] 0
      (some ⟨some "贵州茅台", some 1500, none, some 2, none, none, none, none, none, none, none⟩)
      none none "贵州茅台").2.2 0 (by decide)).trans rfl

theorem exceptMap_comp {α β γ ε : Type} (f : β → γ) (g : α → β) (e : Except ε α) :
    Except.map f (Except.map g e) = Except.map (fun x => f (g x)) e := by
  cases e <;> rfl

theorem strMk_data (s : String) : String.mk s.data = s := by
  cases s
  rfl

theorem fmAux_lit (vars : List (String × String)) (s : List Char) (rest : List Char)
    (hs : ∀ c ∈ s, c ≠ '\x7b' ∧ c ≠ '\x7d') :
    fmAux vars (s ++ rest) .lit
      = Except.map (fun out => s ++ out) (fmAux vars rest .lit) := by
  induction s with
  | nil =>
    cases h : fmAux vars rest FmMode.lit <;> simp [Except.map, h]
  | cons c cs ih =>
    obtain ⟨hc1, hc2⟩ := hs c (by simp)
    rw [List.cons_append]
    show (if c = '\x7b' then _ else if c = '\x7d' then _
      else Except.map (fun out => c :: out) (fmAux vars (cs ++ rest) .lit)) = _
    rw [if_neg hc1, if_neg hc2, ih (fun x hx => hs x (by simp [hx])), exceptMap_comp]
    rfl

theorem fmAux_field (vars : List (String × String)) (ntail : List Char) :
    ∀ (acc rest : List Char),
      (∀ c ∈ ntail, c ≠ '\x7d') →
      fieldNameBad (acc.reverse ++ ntail) = false →
      fmAux vars (ntail ++ '\x7d' :: rest) (.field acc)
        = Except.map
            (fun out => (lookupVar vars (String.mk (acc.reverse ++ ntail))).data ++ out)
            (fmAux vars rest .lit) := by
  induction ntail with
  | nil =>
    intro acc rest hchars hbad
    rw [List.nil_append]
    show (if ('\x7d' : Char) = '\x7d' then _ else _) = _
    rw [if_pos rfl]
    rw [List.append_nil] at hbad
    rw [if_neg (by rw [hbad]; exact Bool.false_ne_true)]
    rw [List.append_nil]
  | cons c cs ih =>
    intro acc rest hchars hbad
    rw [List.cons_append]
    show (if c = '\x7d' then _ else fmAux vars (cs ++ '\x7d' :: rest) (.field (c :: acc))) = _
    rw [if_neg (hchars c (by simp))]
    have hacc : (c :: acc).reverse ++ cs = acc.reverse ++ c :: cs := by
      rw [List.reverse_cons, List.append_assoc]
      rfl
    rw [ih (c :: acc) rest (fun x hx => hchars x (by simp [hx])) (by rwa [hacc]), hacc]

theorem fieldNameBad_of_goodHole (n : String) (h : goodHole n) :
    fieldNameBad n.data = false := by
  obtain ⟨h1, h2, h3⟩ := h
  unfold fieldNameBad
  simp only [Bool.or_eq_false_iff]
  refine ⟨⟨?_, ?_⟩, ?_⟩
  · rw [List.isEmpty_eq_false_iff_exists_mem]
    cases hn : n.data with
    | nil => exact absurd hn h1
    | cons a l => exact ⟨a, by simp⟩
  · rw [List.any_eq_false]
    intro c hc
    obtain ⟨g1, g2, g3, g4, g5, g6, g7⟩ := h2 c hc
    simp [g1, g2, g3, g4, g5, g6]
  · rw [Bool.eq_false_iff]
    intro hall
    exact h3 (by
      intro c hc
      exact List.all_eq_true.mp hall c hc)

theorem fmAux_hole (vars : List (String × String)) (n : String) (rest : List Char)
    (hn : goodHole n) :
    fmAux vars ('\x7b' :: (n.data ++ '\x7d' :: rest)) .lit
      = Except.map (fun out => (lookupVar vars n).data ++ out) (fmAux vars rest .lit) := by
  obtain ⟨h1, h2, h3⟩ := hn
  show (if ('\x7b' : Char) = '\x7b' then fmAux vars (n.data ++ '\x7d' :: rest) .sawL
    else _) = _
  rw [if_pos rfl]
  cases hd : n.data with
  | nil => exact absurd hd h1
  | cons c cs =>
    have hcgood := h2 c (by rw [hd]; simp)
    rw [List.cons_append]
    show (if c = '\x7b' then _ else if c = '\x7d' then _
      else fmAux vars (cs ++ '\x7d' :: rest) (.field [c])) = _
    rw [if_neg hcgood.2.2.2.2.2.1, if_neg hcgood.2.2.2.2.2.2]
    have hfield := fmAux_field vars cs [c] rest
      (fun x hx => (h2 x (by rw [hd]; simp [hx])).2.2.2.2.2.2)
      (by
        show fieldNameBad ([c].reverse ++ cs) = false
        have : [c].reverse ++ cs = n.data := by rw [hd]; rfl
        rw [this]
        exact fieldNameBad_of_goodHole n ⟨h1, h2, h3⟩)
    rw [hfield]
    have : String.mk ([c].reverse ++ cs) = n := by
      rw [show [c].reverse ++ cs = n.data by rw [hd]; rfl, strMk_data]
    rw [this]

/-- C10 counterexample: `_safe_format_route` is not total on arbitrary
templates: on the template consisting of a lone opening brace, Python's
`str.format_map` raises `ValueError` (the model returns the error), so no
string is returned. -/
theorem safe_format_route_total_cex :
    safeFormatRoute "\x7b" []
      = Except.error "single opening brace encountered in format string" := rfl

/-- C10 (amended): on templates made of brace-free literal text and plain
named placeholders — the shape of the configured route templates —
`_safe_format_route` totally returns a string, namely the template with
every placeholder replaced by its variable and every placeholder missing
from the map replaced by the empty string; on malformed templates (a lone
brace) `format_map` raises instead. -/
theorem safe_format_route_simple_total (parts : List TplPart) (vars : List (String × String))
    (h : goodTpl parts) :
    safeFormatRoute (tplString parts) vars = .ok (tplRender vars parts) := by
  unfold safeFormatRoute
  have key : ∀ (ps : List TplPart), goodTpl ps →
      fmAux vars (tplString ps).data .lit = .ok (tplRender vars ps).data := by
    intro ps
    induction ps with
    | nil => intro _; rfl
    | cons p rest ih =>
      intro hgood
      have hrest := ih (fun x hx => hgood x (List.mem_cons_of_mem _ hx))
      cases p with
      | lit s =>
        have hs : goodLit s := hgood (.lit s) (List.mem_cons_self _ _)
        show fmAux vars (s ++ tplString rest).data .lit = _
        rw [String.data_append, fmAux_lit vars s.data _ hs, hrest]
        rfl
      | hole n =>
        have hs : goodHole n := hgood (.hole n) (List.mem_cons_self _ _)
        show fmAux vars ("\x7b" ++ n ++ "\x7d" ++ tplString rest).data .lit = _
        have hdata : ("\x7b" ++ n ++ "\x7d" ++ tplString rest).data
            = '\x7b' :: (n.data ++ '\x7d' :: (tplString rest).data) := by
          simp [String.data_append]
        rw [hdata, fmAux_hole vars n _ hs, hrest]
        rfl
  rw [key parts h]
  rw [show Except.map String.mk (Except.ok (tplRender vars parts).data)
    = Except.ok (String.mk (tplRender vars parts).data) from rfl, strMk_data]

theorem safe_format_route_simple_total_witness :
    safeFormatRoute
      (tplString [TplPart.lit "/cls/depth/", TplPart.hole "code",
                  TplPart.lit "-", TplPart.hole "missing"])
      [("code", "600519")]
      = Except.ok "/cls/depth/600519-" := by
  rw [safe_format_route_simple_total
    [TplPart.lit "/cls/depth/", TplPart.hole "code", TplPart.lit "-", TplPart.hole "missing"]
    [("code", "600519")] (by decide)]
  rfl

theorem hasSubstrL_nil (l : List Char) : hasSubstrL l [] = true := by
  induction l with
  | nil => rfl
  | cons a h ih => simp [hasSubstrL, startsWithL]

theorem startsWithL_nil_needle (l : List Char) : startsWithL l [] = true := by
  cases l <;> rfl

theorem startsWithL_append (x m n : List Char) (h : startsWithL x n = true) :
    startsWithL (x ++ m) n = true := by
  induction n generalizing x with
  | nil => exact startsWithL_nil_needle _
  | cons b ns ih =>
    cases x with
    | nil => simp [startsWithL] at h
    | cons a xs =>
      simp only [startsWithL, Bool.and_eq_true] at h
      simp only [List.cons_append, startsWithL, Bool.and_eq_true]
      exact ⟨h.1, ih xs h.2⟩

theorem hasSubstrL_append_left (l m n : List Char) (h : hasSubstrL l n = true) :
    hasSubstrL (l ++ m) n = true := by
  induction l with
  | nil =>
    simp only [hasSubstrL, List.isEmpty_iff] at h
    subst h
    exact hasSubstrL_nil m
  | cons a ls ih =>
    simp only [hasSubstrL, Bool.or_eq_true] at h
    rcases h with h | h
    · simp only [List.cons_append, hasSubstrL, Bool.or_eq_true]
      exact Or.inl (startsWithL_append _ _ _ h)
    · simp only [List.cons_append, hasSubstrL, Bool.or_eq_true]
      exact Or.inr (ih h)

theorem strLower_append (a b : String) :
    (strLower (a ++ b)).data = (strLower a).data ++ (strLower b).data := by
  simp [strLower, String.data_append]

theorem strContains_text_of_title (t s kw : String)
    (h : strContains (strLower t) kw = true) :
    strContains (strLower (t ++ " " ++ s)) kw = true := by
  unfold strContains at h ⊢
  have hdata : (strLower (t ++ " " ++ s)).data
      = (strLower t).data ++ (strLower (" " ++ s)).data := by
    rw [show t ++ " " ++ s = t ++ (" " ++ s) by rw [String.append_assoc], strLower_append]
  rw [hdata]
  exact hasSubstrL_append_left _ _ _ h

theorem strContains_title_false {t s kw : String}
    (h : strContains (strLower (t ++ " " ++ s)) kw = false) :
    strContains (strLower t) kw = false := by
  by_contra hc
  rw [Bool.not_eq_false] at hc
  rw [strContains_text_of_title t s kw hc] at h
  cases h

theorem dedupFirstGo_mem (l : List String) :
    ∀ (seen : List String) (x : String), x ∈ dedupFirstGo l seen ↔ x ∈ l ∧ x ∉ seen := by
  induction l with
  | nil => intro seen x; simp [dedupFirstGo]
  | cons y ys ih =>
    intro seen x
    unfold dedupFirstGo
    split
    · next hy =>
      rw [ih seen x]
      constructor
      · rintro ⟨hx, hs⟩
        exact ⟨List.mem_cons_of_mem _ hx, hs⟩
      · rintro ⟨hx, hs⟩
        rcases List.mem_cons.mp hx with rfl | hx2
        · exact absurd hy hs
        · exact ⟨hx2, hs⟩
    · next hy =>
      simp only [List.mem_cons]
      rw [ih (y :: seen) x]
      constructor
      · rintro (rfl | ⟨hx, hs⟩)
        · exact ⟨Or.inl rfl, hy⟩
        · refine ⟨Or.inr hx, fun hc => hs (List.mem_cons_of_mem _ hc)⟩
      · rintro ⟨rfl | hx, hs⟩
        · exact Or.inl rfl
        · by_cases hxy : x = y
          · exact Or.inl hxy
          · refine Or.inr ⟨hx, fun hc => ?_⟩
            rcases List.mem_cons.mp hc with h1 | h2
            · exact hxy h1
            · exact hs h2

theorem dedupFirstGo_nodup (l : List String) : ∀ seen, (dedupFirstGo l seen).Nodup := by
  induction l with
  | nil => intro seen; simp [dedupFirstGo]
  | cons y ys ih =>
    intro seen
    unfold dedupFirstGo
    split
    · exact ih seen
    · refine List.nodup_cons.mpr ⟨?_, ih _⟩
      rw [dedupFirstGo_mem]
      rintro ⟨_, hs⟩
      exact hs (List.mem_cons_self _ _)

theorem buildStockKeywords_nodup (stockCode stockName : String) :
    (buildStockKeywords stockCode stockName).Nodup := by
  unfold buildStockKeywords dedupFirst
  exact dedupFirstGo_nodup _ []

theorem name_mem_buildStockKeywords (stockCode stockName : String)
    (h : strTrim stockName ≠ "") :
    strLower (strTrim stockName) ∈ buildStockKeywords stockCode stockName := by
  unfold buildStockKeywords dedupFirst
  rw [dedupFirstGo_mem]
  refine ⟨?_, by simp⟩
  apply List.mem_map_of_mem strLower
  have h0 : strTrim stockName
      ∈ ([strTrim stockName, strTrim stockCode].filter (fun k => k ≠ "")) := by
    rw [List.mem_filter]
    exact ⟨by simp, by simpa using h⟩
  split
  · exact List.mem_append_left _ h0
  · exact h0

theorem code_mem_buildStockKeywords (stockCode stockName : String)
    (h : strTrim stockCode ≠ "") :
    strLower (strTrim stockCode) ∈ buildStockKeywords stockCode stockName := by
  unfold buildStockKeywords dedupFirst
  rw [dedupFirstGo_mem]
  refine ⟨?_, by simp⟩
  apply List.mem_map_of_mem strLower
  have h0 : strTrim stockCode
      ∈ ([strTrim stockName, strTrim stockCode].filter (fun k => k ≠ "")) := by
    rw [List.mem_filter]
    exact ⟨by simp, by simpa using h⟩
  split
  · exact List.mem_append_left _ h0
  · exact h0

theorem sum_map_single {l : List String} {f : String → ℚ} {a : String}
    (hnd : l.Nodup) (ha : a ∈ l) (h0 : ∀ b ∈ l, b ≠ a → f b = 0) :
    (l.map f).sum = f a := by
  induction l with
  | nil => cases ha
  | cons x xs ih =>
    rcases List.mem_cons.mp ha with rfl | hx
    · simp only [List.map_cons, List.sum_cons]
      have hz : (xs.map f).sum = 0 := by
        apply List.sum_eq_zero
        intro y hy
        obtain ⟨b, hb, rfl⟩ := List.mem_map.mp hy
        exact h0 b (List.mem_cons_of_mem _ hb)
          (fun hba => (List.nodup_cons.mp hnd).1 (hba ▸ hb))
      rw [hz, add_zero]
    · simp only [List.map_cons, List.sum_cons]
      have hxa : x ≠ a := fun hxa => (List.nodup_cons.mp hnd).1 (hxa ▸ hx)
      rw [h0 x (List.mem_cons_self _ _) hxa, zero_add]
      exact ih (List.nodup_cons.mp hnd).2 hx
        (fun b hb => h0 b (List.mem_cons_of_mem _ hb))

theorem targetItems_of_dedupe_nil (items : List NewsItem) (c n sc : String)
    (h : dedupeItems items = []) : targetItems items c n sc = [] := by
  unfold targetItems
  rw [h]
  split
  · simp
  · rfl

theorem rank_sort_facts (items : List NewsItem) (c n sc : String) :
    (rankAndFilterItems items c n sc).Pairwise
      (fun a b => scoreItem b c n (sceneKeywords c n sc) (sceneLower sc)
        ≤ scoreItem a c n (sceneKeywords c n sc) (sceneLower sc))
  ∧ (rankAndFilterItems items c n sc).Perm (targetItems items c n sc)
  ∧ ∀ s : ℚ,
      (rankAndFilterItems items c n sc).filter
        (fun it => scoreItem it c n (sceneKeywords c n sc) (sceneLower sc) = s)
      = (targetItems items c n sc).filter
        (fun it => scoreItem it c n (sceneKeywords c n sc) (sceneLower sc) = s) := by
  by_cases hde : (dedupeItems items).isEmpty
  · have hnil : dedupeItems items = [] := List.isEmpty_iff.mp hde
    have hout : rankAndFilterItems items c n sc = [] := by
      unfold rankAndFilterItems
      rw [if_pos hde]
    have htgt := targetItems_of_dedupe_nil items c n sc hnil
    rw [hout, htgt]
    exact ⟨List.Pairwise.nil, List.Perm.refl _, fun s => rfl⟩
  · have hout : rankAndFilterItems items c n sc
        = (List.insertionSort scoreGe
            ((targetItems items c n sc).map
              (fun it => (scoreItem it c n (sceneKeywords c n sc) (sceneLower sc), it)))).map
          Prod.snd := by
      unfold rankAndFilterItems
      rw [if_neg hde]
    set kws := sceneKeywords c n sc with hkws
    set sl := sceneLower sc with hsl
    set tgt := targetItems items c n sc with htgt
    set scored := tgt.map (fun it => (scoreItem it c n kws sl, it)) with hscored
    set sorted := List.insertionSort scoreGe scored with hsorted
    have hmemGen : ∀ p ∈ scored, p.1 = scoreItem p.2 c n kws sl := by
      rintro p hp
      obtain ⟨it, hit, rfl⟩ := List.mem_map.mp hp
      rfl
    have hmemSorted : ∀ p ∈ sorted, p.1 = scoreItem p.2 c n kws sl := by
      intro p hp
      exact hmemGen p ((List.perm_insertionSort scoreGe scored).subset hp)
    refine ⟨?_, ?_, ?_⟩
    · rw [hout]
      rw [List.pairwise_map]
      have hsort : sorted.Pairwise scoreGe := List.sorted_insertionSort scoreGe scored
      exact hsort.imp_of_mem (fun {a b} ha hb hr => by
        rw [← hmemSorted a ha, ← hmemSorted b hb]
        exact hr)
    · rw [hout]
      have h1 : (sorted.map Prod.snd).Perm (scored.map Prod.snd) :=
        (List.perm_insertionSort scoreGe scored).map Prod.snd
      have h2 : scored.map Prod.snd = tgt := by
        rw [hscored, List.map_map]
        rw [show (Prod.snd ∘ fun it => (scoreItem it c n kws sl, it)) = id from rfl,
          List.map_id]
      rw [h2] at h1
      exact h1
    · intro s
      rw [hout]
      have step1 : (sorted.map Prod.snd).filter
            (fun it => decide (scoreItem it c n kws sl = s))
          = (sorted.filter (fun p => decide (scoreItem p.2 c n kws sl = s))).map Prod.snd :=
        List.filter_map _ _
      have step2 : sorted.filter (fun p => decide (scoreItem p.2 c n kws sl = s))
          = sorted.filter (fun p => decide (p.1 = s)) :=
        List.filter_congr (fun p hp => by rw [hmemSorted p hp])
      have hcz : (scored.filter (fun p => decide (p.1 = s))).Pairwise scoreGe := by
        apply List.pairwise_of_forall_mem_list
        intro a ha b hb
        have ha2 : a.1 = s := of_decide_eq_true ((List.mem_filter.mp ha).2)
        have hb2 : b.1 = s := of_decide_eq_true ((List.mem_filter.mp hb).2)
        unfold scoreGe
        rw [ha2, hb2]
      have hsub : List.Sublist (scored.filter (fun p => decide (p.1 = s))) sorted :=
        List.sublist_insertionSort hcz (List.filter_sublist scored)
      have hsub2 : List.Sublist (scored.filter (fun p => decide (p.1 = s)))
          (sorted.filter (fun p => decide (p.1 = s))) := by
        have h1 := List.Sublist.filter (fun p => decide (p.1 = s)) hsub
        rwa [List.filter_filter,
          (by
            apply List.filter_congr
            intro a _
            show (decide (a.1 = s) && decide (a.1 = s)) = decide (a.1 = s)
            rw [Bool.and_self] :
            scored.filter (fun a => decide (a.1 = s) && decide (a.1 = s))
              = scored.filter (fun p => decide (p.1 = s)))] at h1
      have hperm : (sorted.filter (fun p => decide (p.1 = s))).Perm
          (scored.filter (fun p => decide (p.1 = s))) :=
        (List.perm_insertionSort scoreGe scored).filter _
      have step3 : sorted.filter (fun p => decide (p.1 = s))
          = scored.filter (fun p => decide (p.1 = s)) :=
        (hsub2.eq_of_length hperm.length_eq.symm).symm
      have step4 : tgt.filter (fun it => decide (scoreItem it c n kws sl = s))
          = (scored.filter (fun p => decide (p.1 = s))).map Prod.snd := by
        have h2 : scored.map Prod.snd = tgt := by
          rw [hscored, List.map_map]
          rw [show (Prod.snd ∘ fun it => (scoreItem it c n kws sl, it)) = id from rfl,
            List.map_id]
        rw [← h2, List.filter_map _ _]
        congr 1
        apply List.filter_congr
        intro p hp
        show ((fun it => decide (scoreItem it c n kws sl = s)) ∘ Prod.snd) p
          = decide (p.1 = s)
        show decide (scoreItem p.2 c n kws sl = s) = decide (p.1 = s)
        rw [hmemGen p hp]
      rw [step1, step2, step3, ← step4]

/-- C5 counterexample: the claim's consequence fails as stated.  Items `A`
(stock name only in the summary, raw code also in the summary) and `B`
(stock name in the title) have equal source and recency weights, yet `A`
scores 6.5 and `B` only 5.5, so `A` does not score strictly less than `B`. -/
theorem news_scoring_cex :
    sourceWeight (NewsItem.mk "x" "" none "贵州茅台 600519").link
      = sourceWeight (NewsItem.mk "贵州茅台" "" none "").link
  ∧ recencyWeight (NewsItem.mk "x" "" none "贵州茅台 600519").published
      = recencyWeight (NewsItem.mk "贵州茅台" "" none "").published
  ∧ strContains (strLower ("x" ++ " " ++ "贵州茅台 600519")) (strLower "贵州茅台") = true
  ∧ strContains (strLower "x") (strLower "贵州茅台") = false
  ∧ strContains (strLower "贵州茅台") (strLower "贵州茅台") = true
  ∧ scoreItem (NewsItem.mk "x" "" none "贵州茅台 600519") "600519" "贵州茅台"
      (buildStockKeywords "600519" "贵州茅台") "stock" = 13/2
  ∧ scoreItem (NewsItem.mk "贵州茅台" "" none "") "600519" "贵州茅台"
      (buildStockKeywords "600519" "贵州茅台") "stock" = 11/2
  ∧ ¬(scoreItem (NewsItem.mk "x" "" none "贵州茅台 600519") "600519" "贵州茅台"
        (buildStockKeywords "600519" "贵州茅台") "stock"
      < scoreItem (NewsItem.mk "贵州茅台" "" none "") "600519" "贵州茅台"
        (buildStockKeywords "600519" "贵州茅台") "stock") := by
  have hkws : buildStockKeywords "600519" "贵州茅台" = ["贵州茅台", "600519", "sh600519"] := by
    decide
  have s1 : ("贵州茅台" : String) ≠ "" := by decide
  have s2 : ("600519" : String) ≠ "" := by decide
  have s3 : ("sh600519" : String) ≠ "" := by decide
  have l1 : strLower "贵州茅台" = "贵州茅台" := by decide
  have l2 : strLower "600519" = "600519" := by decide
  have tA1 : strContains (strLower "x 贵州茅台 600519") "贵州茅台" = true := by decide
  have tA2 : strContains (strLower "x") "贵州茅台" = false := by decide
  have tA3 : strContains (strLower "x 贵州茅台 600519") "600519" = true := by decide
  have tA4 : strContains (strLower "x") "600519" = false := by decide
  have tA5 : strContains (strLower "x 贵州茅台 600519") "sh600519" = false := by decide
  have tA6 : strContains (strLower "x") "sh600519" = false := by decide
  have tB1 : strContains (strLower "贵州茅台 ") "贵州茅台" = true := by decide
  have tB2 : strContains "贵州茅台" "贵州茅台" = true := by decide
  have tB3 : strContains (strLower "贵州茅台 ") "600519" = false := by decide
  have tB4 : strContains "贵州茅台" "600519" = false := by decide
  have tB5 : strContains (strLower "贵州茅台 ") "sh600519" = false := by decide
  have tB6 : strContains "贵州茅台" "sh600519" = false := by decide
  have hA : scoreItem (NewsItem.mk "x" "" none "贵州茅台 600519") "600519" "贵州茅台"
      (buildStockKeywords "600519" "贵州茅台") "stock" = 13/2 := by
    simp only [scoreItem, hkws, List.map_cons, List.map_nil, List.sum_cons, List.sum_nil,
      sourceWeight, recencyWeight]
    simp [l1, l2, s1, s2, s3, tA1, tA2, tA3, tA4, tA5, tA6]
    norm_num
  have hB : scoreItem (NewsItem.mk "贵州茅台" "" none "") "600519" "贵州茅台"
      (buildStockKeywords "600519" "贵州茅台") "stock" = 11/2 := by
    simp only [scoreItem, hkws, List.map_cons, List.map_nil, List.sum_cons, List.sum_nil,
      sourceWeight, recencyWeight]
    simp [l1, l2, s1, s2, s3, tB1, tB2, tB3, tB4, tB5, tB6]
    norm_num
  refine ⟨rfl, rfl, by decide, by decide, by decide, hA, hB, ?_⟩
  rw [hA, hB]
  norm_num

/-- C5 (amended): in the stock scene `_score_item` awards +2.0 per keyword
present in the lowercased title+summary text, +1.5 more per keyword present
in the title, +2.5 when the raw code appears in the text and +2.0 when the
stock name appears in the title, plus the source and recency weights;
consequently, for two items with equal source and recency weights *that
match no keyword other than the stock name and do not contain the raw
code*, an item carrying the name only in its summary (score 2 + weights)
scores strictly less than one carrying it in its title (score 5.5 +
weights); and `_rank_and_filter_items` sorts descending by score with the
stable tie-break keeping the original order of equal-score items. -/
theorem news_scoring (stockCode stockName : String) (A B : NewsItem)
    (hct : strTrim stockCode = stockCode)
    (hnt : strTrim stockName = stockName)
    (hcn : strLower stockCode ≠ strLower stockName)
    (hname : strLower stockName ≠ "")
    (hAtext : strContains (strLower (A.title ++ " " ++ A.summary)) (strLower stockName) = true)
    (hAtitle : strContains (strLower A.title) (strLower stockName) = false)
    (hBtitle : strContains (strLower B.title) (strLower stockName) = true)
    (hother : ∀ kw ∈ buildStockKeywords stockCode stockName, kw ≠ strLower stockName →
        strContains (strLower (A.title ++ " " ++ A.summary)) kw = false
      ∧ strContains (strLower (B.title ++ " " ++ B.summary)) kw = false) :
    scoreItem A stockCode stockName (buildStockKeywords stockCode stockName) "stock"
      = 2 + sourceWeight A.link + recencyWeight A.published
  ∧ scoreItem B stockCode stockName (buildStockKeywords stockCode stockName) "stock"
      = 11/2 + sourceWeight B.link + recencyWeight B.published
  ∧ (sourceWeight A.link = sourceWeight B.link →
     recencyWeight A.published = recencyWeight B.published →
     scoreItem A stockCode stockName (buildStockKeywords stockCode stockName) "stock"
       < scoreItem B stockCode stockName (buildStockKeywords stockCode stockName) "stock")
  ∧ (∀ (items : List NewsItem) (cc nn ss : String),
      (rankAndFilterItems items cc nn ss).Pairwise
        (fun a b => scoreItem b cc nn (sceneKeywords cc nn ss) (sceneLower ss)
          ≤ scoreItem a cc nn (sceneKeywords cc nn ss) (sceneLower ss))
    ∧ (rankAndFilterItems items cc nn ss).Perm (targetItems items cc nn ss)
    ∧ ∀ s : ℚ,
        (rankAndFilterItems items cc nn ss).filter
          (fun it => scoreItem it cc nn (sceneKeywords cc nn ss) (sceneLower ss) = s)
        = (targetItems items cc nn ss).filter
          (fun it => scoreItem it cc nn (sceneKeywords cc nn ss) (sceneLower ss) = s)) := by
  have hname_ne : stockName ≠ "" := by
    intro h
    rw [h] at hname
    exact hname rfl
  have hnameL_mem : strLower stockName ∈ buildStockKeywords stockCode stockName := by
    have h2 : strTrim stockName ≠ "" := by rw [hnt]; exact hname_ne
    have h3 := name_mem_buildStockKeywords stockCode stockName h2
    rwa [hnt] at h3
  have hnd := buildStockKeywords_nodup stockCode stockName
  have hcodeContains : ∀ T : NewsItem,
      (∀ kw ∈ buildStockKeywords stockCode stockName, kw ≠ strLower stockName →
        strContains (strLower (T.title ++ " " ++ T.summary)) kw = false) →
      (if strLower stockCode ≠ ""
          ∧ strContains (strLower (T.title ++ " " ++ T.summary)) (strLower stockCode) = true
        then (5/2 : ℚ) else 0) = 0 := by
    intro T hT
    rw [if_neg]
    rintro ⟨hc0, hctn⟩
    have hcode_ne : stockCode ≠ "" := by
      intro h
      rw [h] at hc0
      exact hc0 rfl
    have hmem := code_mem_buildStockKeywords stockCode stockName (by rw [hct]; exact hcode_ne)
    rw [hct] at hmem
    have hfalse := hT _ hmem hcn
    rw [hfalse] at hctn
    cases hctn
  have hzeroA : ∀ b ∈ buildStockKeywords stockCode stockName, b ≠ strLower stockName →
      (if b = "" then (0:ℚ)
       else (if strContains (strLower (A.title ++ " " ++ A.summary)) b then (2:ℚ) else 0)
            + (if strContains (strLower A.title) b then 3/2 else 0)) = 0 := by
    intro b hb hbne
    obtain ⟨hbA, _⟩ := hother b hb hbne
    by_cases hb0 : b = ""
    · rw [if_pos hb0]
    · rw [if_neg hb0, hbA, strContains_title_false hbA]
      norm_num
  have hzeroB : ∀ b ∈ buildStockKeywords stockCode stockName, b ≠ strLower stockName →
      (if b = "" then (0:ℚ)
       else (if strContains (strLower (B.title ++ " " ++ B.summary)) b then (2:ℚ) else 0)
            + (if strContains (strLower B.title) b then 3/2 else 0)) = 0 := by
    intro b hb hbne
    obtain ⟨_, hbB⟩ := hother b hb hbne
    by_cases hb0 : b = ""
    · rw [if_pos hb0]
    · rw [if_neg hb0, hbB, strContains_title_false hbB]
      norm_num
  have hBtext : strContains (strLower (B.title ++ " " ++ B.summary)) (strLower stockName)
      = true := strContains_text_of_title _ _ _ hBtitle
  have hA : scoreItem A stockCode stockName (buildStockKeywords stockCode stockName) "stock"
      = 2 + sourceWeight A.link + recencyWeight A.published := by
    simp only [scoreItem]
    rw [sum_map_single hnd hnameL_mem hzeroA]
    rw [hcodeContains A (fun kw hk hne => (hother kw hk hne).1)]
    rw [if_neg (show ¬(strLower stockName ≠ ""
        ∧ strContains (strLower A.title) (strLower stockName) = true) by
      rintro ⟨_, hx⟩
      rw [hAtitle] at hx
      cases hx)]
    simp [hAtext, hAtitle, hname]
  have hB : scoreItem B stockCode stockName (buildStockKeywords stockCode stockName) "stock"
      = 11/2 + sourceWeight B.link + recencyWeight B.published := by
    simp only [scoreItem]
    rw [sum_map_single hnd hnameL_mem hzeroB]
    rw [hcodeContains B (fun kw hk hne => (hother kw hk hne).2)]
    rw [if_pos (show strLower stockName ≠ ""
        ∧ strContains (strLower B.title) (strLower stockName) = true from ⟨hname, hBtitle⟩)]
    simp [hBtext, hBtitle, hname]
    ring
  refine ⟨hA, hB, ?_, ?_⟩
  · intro hw1 hw2
    rw [hA, hB, hw1, hw2]
    linarith
  · intro items cc nn ss
    exact rank_sort_facts items cc nn ss

theorem news_scoring_witness :
    scoreItem (NewsItem.mk "x" "" none "贵州茅台利好") "600519" "贵州茅台"
      (buildStockKeywords "600519" "贵州茅台") "stock"
    < scoreItem (NewsItem.mk "贵州茅台" "" none "") "600519" "贵州茅台"
      (buildStockKeywords "600519" "贵州茅台") "stock" :=
  (news_scoring "600519" "贵州茅台"
    (NewsItem.mk "x" "" none "贵州茅台利好") (NewsItem.mk "贵州茅台" "" none "")
    (by decide) (by decide) (by decide) (by decide)
    (by decide) (by decide) (by decide) (by decide)).2.2.1 rfl rfl

theorem quarterPair_le (p : ℕ × ℕ) (hp : p ∈ quarterEndsRev) :
    331 ≤ p.1 * 100 + p.2 ∧ p.1 * 100 + p.2 ≤ 1231 := by
  simp only [quarterEndsRev, List.mem_cons, List.not_mem_nil, or_false] at hp
  rcases hp with rfl | rfl | rfl | rfl <;> norm_num

theorem innerQ_spec (limit : ℕ) (today : PyDate) (year : ℕ)
    (hy1 : 1 ≤ year) (hy2 : year ≤ 9999) :
    ∀ (qlist : List (ℕ × ℕ)) (c : ℕ) (racc : List PyDate),
      c < limit →
      c = racc.length →
      (∀ p ∈ qlist, p ∈ quarterEndsRev) →
      List.Pairwise (fun p q : ℕ × ℕ => q.1 * 100 + q.2 < p.1 * 100 + p.2) qlist →
      (∀ x ∈ racc, ∀ p ∈ qlist, year * 10000 + p.1 * 100 + p.2 < encD x) →
      racc.Chain' (fun a b => encD a < encD b) →
      ∃ c2 racc2,
        innerQ limit today year qlist c racc = .ok (c2, racc2)
      ∧ c2 = racc2.length
      ∧ c ≤ c2 ∧ c2 ≤ limit
      ∧ racc2.Chain' (fun a b => encD a < encD b)
      ∧ (∀ x ∈ racc2, x ∈ racc ∨ (x.y = year ∧ (x.m, x.d) ∈ qlist ∧ dateLe x today = true))
      ∧ ((∀ p ∈ qlist, dateLe ⟨year, p.1, p.2⟩ today = true) →
          c2 = min (c + qlist.length) limit) := by
  intro qlist
  induction qlist with
  | nil =>
    intro c racc hclim hcr _ _ _ hchain
    refine ⟨c, racc, rfl, hcr, le_refl c, le_of_lt hclim, hchain,
      fun x hx => Or.inl hx, fun _ => ?_⟩
    simp only [List.length_nil]
    omega
  | cons p rest ih =>
    obtain ⟨m, d⟩ := p
    intro c racc hclim hcr hsub hdesc hmono hchain
    have hmk : mkDateE year m d = .ok ⟨year, m, d⟩ := by
      unfold mkDateE
      rw [if_pos ⟨hy1, hy2⟩]
    have hstep : innerQ limit today year ((m, d) :: rest) c racc
        = (let c2 := if dateLe ⟨year, m, d⟩ today then c + 1 else c
           let racc2 := if dateLe ⟨year, m, d⟩ today then (⟨year, m, d⟩ : PyDate) :: racc else racc
           if limit ≤ c2 then .ok (c2, racc2) else innerQ limit today year rest c2 racc2) := by
      simp only [innerQ, hmk]
    by_cases hle : dateLe ⟨year, m, d⟩ today = true
    · rw [hstep]
      simp only [hle, if_pos]
      by_cases hstop : limit ≤ c + 1
      · rw [if_pos hstop]
        refine ⟨c + 1, ⟨year, m, d⟩ :: racc, rfl, by simp [hcr], Nat.le_succ c, by omega, ?_,
          ?_, ?_⟩
        · rw [List.chain'_cons']
          refine ⟨?_, hchain⟩
          intro h hh
          have hhm : h ∈ racc := List.mem_of_mem_head? hh
          have := hmono h hhm (m, d) (List.mem_cons_self _ _)
          simpa [encD] using this
        · intro x hx
          rcases List.mem_cons.mp hx with rfl | hx2
          · exact Or.inr ⟨rfl, List.mem_cons_self _ _, hle⟩
          · exact Or.inl hx2
        · intro _
          simp only [List.length_cons]
          omega
      · rw [if_neg hstop]
        have hmono2 : ∀ x ∈ (⟨year, m, d⟩ : PyDate) :: racc, ∀ q ∈ rest,
            year * 10000 + q.1 * 100 + q.2 < encD x := by
          intro x hx q hq
          rcases List.mem_cons.mp hx with rfl | hx2
          · have hlt := (List.pairwise_cons.mp hdesc).1 q hq
            simp only [encD]
            omega
          · exact hmono x hx2 q (List.mem_cons_of_mem _ hq)
        have hchain2 : ((⟨year, m, d⟩ : PyDate) :: racc).Chain'
            (fun a b => encD a < encD b) := by
          rw [List.chain'_cons']
          refine ⟨?_, hchain⟩
          intro h hh
          have hhm : h ∈ racc := List.mem_of_mem_head? hh
          have := hmono h hhm (m, d) (List.mem_cons_self _ _)
          simpa [encD] using this
        obtain ⟨c2, racc2, heq, h1, h2, h3, h4, h5, h6⟩ :=
          ih (c + 1) (⟨year, m, d⟩ :: racc) (by omega) (by simp [hcr])
            (fun q hq => hsub q (List.mem_cons_of_mem _ hq))
            (List.pairwise_cons.mp hdesc).2 hmono2 hchain2
        refine ⟨c2, racc2, heq, h1, by omega, h3, h4, ?_, ?_⟩
        · intro x hx
          rcases h5 x hx with hin | ⟨hxy, hq, hxle⟩
          · rcases List.mem_cons.mp hin with rfl | hin2
            · exact Or.inr ⟨rfl, List.mem_cons_self _ _, hle⟩
            · exact Or.inl hin2
          · exact Or.inr ⟨hxy, List.mem_cons_of_mem _ hq, hxle⟩
        · intro hall
          have := h6 (fun q hq => hall q (List.mem_cons_of_mem _ hq))
          simp only [List.length_cons]
          omega
    · have hle2 : dateLe ⟨year, m, d⟩ today = false := by
        cases h : dateLe ⟨year, m, d⟩ today
        · rfl
        · exact absurd h hle
      rw [hstep]
      simp only [hle2, if_neg, Bool.false_eq_true, if_false]
      rw [if_neg (by omega : ¬ limit ≤ c)]
      obtain ⟨c2, racc2, heq, h1, h2, h3, h4, h5, h6⟩ :=
        ih c racc hclim hcr
          (fun q hq => hsub q (List.mem_cons_of_mem _ hq))
          (List.pairwise_cons.mp hdesc).2
          (fun x hx q hq => hmono x hx q (List.mem_cons_of_mem _ hq)) hchain
      refine ⟨c2, racc2, heq, h1, h2, h3, h4, ?_, ?_⟩
      · intro x hx
        rcases h5 x hx with hin | ⟨hxy, hq, hxle⟩
        · exact Or.inl hin
        · exact Or.inr ⟨hxy, List.mem_cons_of_mem _ hq, hxle⟩
      · intro hall
        exact absurd (hall (m, d) (List.mem_cons_self _ _)) (by rw [hle2]; exact Bool.false_ne_true)

theorem yearLoop_spec (limit : ℕ) (today : PyDate)
    (hty : today.y ≤ 9999) :
    ∀ (fuel : ℕ), ∀ (year c : ℕ) (racc : List PyDate),
      c = racc.length →
      c ≤ limit →
      racc.Chain' (fun a b => encD a < encD b) →
      (∀ x ∈ racc, dateLe x today = true) →
      (∀ x ∈ racc, (x.m, x.d) ∈ quarterEndsRev) →
      (∀ x ∈ racc, year * 10000 + 1231 < encD x) →
      year < today.y →
      (c < limit → limit - c ≤ 4 * year) →
      (limit - c) + 4 ≤ 4 * fuel →
      ∃ ds, yearLoop limit today fuel year c racc = .ok ds
        ∧ ds.length = limit
        ∧ ds.Chain' (fun a b => encD a < encD b)
        ∧ (∀ x ∈ ds, dateLe x today = true)
        ∧ (∀ x ∈ ds, (x.m, x.d) ∈ quarterEndsRev) := by
  intro fuel
  induction fuel with
  | zero =>
    intro year c racc _ _ _ _ _ _ _ _ hfuel
    omega
  | succ fuel ih =>
    intro year c racc hcr hclim hchain hToday hQE hbound hyear hbudget hfuel
    by_cases hstop : limit ≤ c
    · refine ⟨racc, ?_, by omega, hchain, hToday, hQE⟩
      simp only [yearLoop]
      rw [if_pos hstop]
    · have hclt : c < limit := by omega
      have hy1 : 1 ≤ year := by
        have := hbudget hclt
        omega
      have hy2 : year ≤ 9999 := by omega
      have hmono0 : ∀ x ∈ racc, ∀ p ∈ quarterEndsRev,
          year * 10000 + p.1 * 100 + p.2 < encD x := by
        intro x hx p hp
        have h1 := hbound x hx
        have h2 := (quarterPair_le p hp).2
        omega
      have hdesc : List.Pairwise (fun p q : ℕ × ℕ => q.1 * 100 + q.2 < p.1 * 100 + p.2)
          quarterEndsRev := by decide
      obtain ⟨c2, racc2, heq, hc2r, hcle, hc2lim, hchain2, hsplit, hcount⟩ :=
        innerQ_spec limit today year hy1 hy2 quarterEndsRev c racc hclt hcr
          (fun p hp => hp) hdesc hmono0 hchain
      have hallle : ∀ p ∈ quarterEndsRev, dateLe ⟨year, p.1, p.2⟩ today = true := by
        intro p hp
        have h2 := (quarterPair_le p hp).2
        unfold dateLe
        apply decide_eq_true
        show encD ⟨year, p.1, p.2⟩ ≤ encD today
        have henc : today.y * 10000 ≤ encD today := by
          unfold encD
          omega
        simp only [encD]
        omega
      have hc2 := hcount hallle
      rw [show quarterEndsRev.length = 4 from rfl] at hc2
      have hle2 : ∀ x ∈ racc2, dateLe x today = true := by
        intro x hx
        rcases hsplit x hx with hold | ⟨_, _, hnew⟩
        · exact hToday x hold
        · exact hnew
      have hqe2 : ∀ x ∈ racc2, (x.m, x.d) ∈ quarterEndsRev := by
        intro x hx
        rcases hsplit x hx with hold | ⟨_, hq, _⟩
        · exact hQE x hold
        · exact hq
      have hbound2 : ∀ x ∈ racc2, (year - 1) * 10000 + 1231 < encD x := by
        intro x hx
        rcases hsplit x hx with hold | ⟨hxy, hq, _⟩
        · have := hbound x hold
          omega
        · have h331 := (quarterPair_le (x.m, x.d) hq).1
          simp only [encD, hxy]
          omega
      obtain ⟨ds, hds, hdl, hdc, hdt, hdq⟩ :=
        ih (year - 1) c2 racc2 hc2r (by omega) hchain2 hle2 hqe2 hbound2
          (by omega) (by omega) (by omega)
      refine ⟨ds, ?_, hdl, hdc, hdt, hdq⟩
      simp only [yearLoop]
      rw [if_neg hstop, heq]
      exact hds

/-- C6 counterexample: the claim is not true for *every* limit ≥ 1.  With
today = 2025-10-12, `_recent_quarter_dates(8100)` walks the year counter
past year 1; `datetime(0, 12, 31)` is out of `datetime`'s year range, so
Python raises `ValueError` instead of returning 8100 dates. -/
theorem quarter_dates_year_zero_cex :
    recentQuarterDates 8100 ⟨2025, 10, 12⟩ = .error "year is out of range" := rfl

/-- C6 (amended): for every `limit` with `1 ≤ limit ≤ 4·(current year − 1)`
— every terminating run, and any configured `finance_max_quarters` in
practice — `_recent_quarter_dates` returns exactly `limit` quarter-end
dates (last day of Mar/Jun/Sep/Dec), strictly descending, none after
today; and for `limit = 2` evaluated on any date strictly between
2024-12-31 and 2025-03-31 the result is `["2024-12-31", "2024-09-30"]`.
For larger limits the year walk reaches year 0 and raises (see the
counterexample). -/
theorem quarter_dates_spec :
    (∀ (limit : ℕ) (today : PyDate),
       1 ≤ limit → limit ≤ 4 * (today.y - 1) → validDate today →
       ∃ ds, recentQuarterVals limit today = .ok ds
         ∧ recentQuarterDates limit today = .ok (ds.map formatQDate)
         ∧ ds.length = limit
         ∧ ds.Chain' (fun a b => encD b < encD a)
         ∧ (∀ x ∈ ds, encD x ≤ encD today)
         ∧ (∀ x ∈ ds, (x.m, x.d) ∈ quarterEndsRev))
  ∧ (∀ today : PyDate, validDate today →
       20241231 < encD today → encD today < 20250331 →
       recentQuarterDates 2 today = .ok ["2024-12-31", "2024-09-30"]) := by
  constructor
  · intro limit today hlim hbud hval
    obtain ⟨hy1, hy9999, hm1, hm12, hd1, hd31⟩ := hval
    obtain ⟨c1, racc1, heq1, hc1r, _, hc1lim, hchain1, hsplit1, _⟩ :=
      innerQ_spec limit today today.y hy1 hy9999 quarterEndsRev 0 []
        (by omega) rfl (fun p hp => hp) (by decide) (by simp) (by simp)
    have hToday1 : ∀ x ∈ racc1, dateLe x today = true := by
      intro x hx
      rcases hsplit1 x hx with h | ⟨_, _, h3⟩
      · simp at h
      · exact h3
    have hQE1 : ∀ x ∈ racc1, (x.m, x.d) ∈ quarterEndsRev := by
      intro x hx
      rcases hsplit1 x hx with h | ⟨_, hq, _⟩
      · simp at h
      · exact hq
    have hbound1 : ∀ x ∈ racc1, (today.y - 1) * 10000 + 1231 < encD x := by
      intro x hx
      rcases hsplit1 x hx with h | ⟨hxy, hq, _⟩
      · simp at h
      · have h331 := (quarterPair_le (x.m, x.d) hq).1
        simp only [encD, hxy]
        omega
    obtain ⟨ds, hds, hdl, hdc, hdt, hdq⟩ :=
      yearLoop_spec limit today hy9999 (limit + 1) (today.y - 1) c1 racc1
        hc1r hc1lim hchain1 hToday1 hQE1 hbound1 (by omega) (by omega) (by omega)
    have hrun : yearLoop limit today (limit + 2) today.y 0 [] = .ok ds := by
      show yearLoop limit today (limit + 1 + 1) today.y 0 [] = .ok ds
      simp only [yearLoop]
      rw [if_neg (by omega : ¬ limit ≤ 0), heq1]
      exact hds
    refine ⟨ds.reverse, ?_, ?_, ?_, ?_, ?_, ?_⟩
    · unfold recentQuarterVals
      rw [hrun]
      rfl
    · unfold recentQuarterDates recentQuarterVals
      rw [hrun]
      rfl
    · simp [hdl]
    · exact List.chain'_reverse.mpr hdc
    · intro x hx
      rw [List.mem_reverse] at hx
      have := hdt x hx
      unfold dateLe at this
      exact of_decide_eq_true this
    · intro x hx
      rw [List.mem_reverse] at hx
      exact hdq x hx
  · intro today hval h1 h2
    obtain ⟨ty, tm, td⟩ := today
    obtain ⟨hy1, hy9999, hm1, hm12, hd1, hd31⟩ := hval
    simp only [encD] at h1 h2
    simp only at h1 h2 hm12 hd31
    have hty : ty = 2025 := by omega
    subst hty
    have q1 : dateLe ⟨2025, 12, 31⟩ ⟨2025, tm, td⟩ = false := by
      unfold dateLe
      apply decide_eq_false
      simp only [encD]
      omega
    have q2 : dateLe ⟨2025, 9, 30⟩ ⟨2025, tm, td⟩ = false := by
      unfold dateLe
      apply decide_eq_false
      simp only [encD]
      omega
    have q3 : dateLe ⟨2025, 6, 30⟩ ⟨2025, tm, td⟩ = false := by
      unfold dateLe
      apply decide_eq_false
      simp only [encD]
      omega
    have q4 : dateLe ⟨2025, 3, 31⟩ ⟨2025, tm, td⟩ = false := by
      unfold dateLe
      apply decide_eq_false
      simp only [encD]
      omega
    have q5 : dateLe ⟨2024, 12, 31⟩ ⟨2025, tm, td⟩ = true := by
      unfold dateLe
      apply decide_eq_true
      simp only [encD]
      omega
    have q6 : dateLe ⟨2024, 9, 30⟩ ⟨2025, tm, td⟩ = true := by
      unfold dateLe
      apply decide_eq_true
      simp only [encD]
      omega
    have f1 : formatQDate ⟨2024, 12, 31⟩ = "2024-12-31" := by decide
    have f2 : formatQDate ⟨2024, 9, 30⟩ = "2024-09-30" := by decide
    unfold recentQuarterDates recentQuarterVals
    norm_num [yearLoop, innerQ, quarterEndsRev, mkDateE, q1, q2, q3, q4, q5, q6, f1, f2]
    simp [Except.map, f1, f2]

theorem quarter_dates_spec_witness :
    recentQuarterDates 2 ⟨2025, 1, 15⟩ = .ok ["2024-12-31", "2024-09-30"] :=
  quarter_dates_spec.2 ⟨2025, 1, 15⟩ (by norm_num [validDate]) (by norm_num [encD])
    (by norm_num [encD])
